import Mathlib

set_option maxRecDepth 4000

/-!
Shallow embedding of the local-context-mcp core (pattern matcher, structure
extractor, reference tracker, cache manager), translated from the TypeScript
sources, together with theorems settling the frozen claims.

File-system state, modification times and external libraries (the OS `fs`
module, `minimatch`, the `crypto` sha256 hash, the JS `RegExp` engine) are
modelled explicitly: the file system as finite trees / abstract maps, sha256
as an arbitrary deterministic function parameter, and each JS regular
expression as a hand-translated recognizer with JS backtracking order.
Possibly-nonterminating JS loops are embedded with an explicit fuel
parameter; `none` denotes divergence (fuel exhaustion).
-/

/-! ## Generic association-list helpers (JS `Map.set` / record-assignment semantics:
replace in place when the key is present, append otherwise). -/

def assocSet {κ α : Type} [DecidableEq κ] (m : List (κ × α)) (k : κ) (v : α) : List (κ × α) :=
  if m.any (fun kv => kv.1 = k) then
    m.map (fun kv => if kv.1 = k then (k, v) else kv)
  else
    m ++ [(k, v)]

def assocGet {κ α : Type} [DecidableEq κ] (m : List (κ × α)) (k : κ) : Option α :=
  (m.find? (fun kv => kv.1 = k)).map (fun kv => kv.2)

theorem assocSet_self {κ α : Type} [DecidableEq κ] (m : List (κ × α)) (k : κ) (v : α) :
    (k, v) ∈ assocSet m k v := by
  unfold assocSet
  split
  · next h =>
    rw [List.any_eq_true] at h
    obtain ⟨kv, hmem, hk⟩ := h
    rw [List.mem_map]
    exact ⟨kv, hmem, by simp [of_decide_eq_true hk]⟩
  · simp

theorem assocSet_mem {κ α : Type} [DecidableEq κ] {m : List (κ × α)} {k : κ} {v : α} {kv : κ × α}
    (h : kv ∈ assocSet m k v) : kv ∈ m ∨ kv = (k, v) := by
  unfold assocSet at h
  split at h
  · rw [List.mem_map] at h
    obtain ⟨kv', hmem, heq⟩ := h
    by_cases hk : kv'.1 = k
    · right
      simpa [hk] using heq.symm
    · left
      rw [if_neg hk] at heq
      exact heq ▸ hmem
  · rw [List.mem_append] at h
    rcases h with h | h
    · exact Or.inl h
    · exact Or.inr (by simpa using h)

theorem assocGet_eq_some {κ α : Type} [DecidableEq κ] {m : List (κ × α)} {k : κ} {v : α}
    (h : assocGet m k = some v) : (k, v) ∈ m := by
  unfold assocGet at h
  cases hf : m.find? (fun kv => kv.1 = k) with
  | none => rw [hf] at h; exact Option.noConfusion h
  | some kv =>
    rw [hf, Option.map_some'] at h
    injection h with h
    have hmem := List.mem_of_find?_eq_some hf
    have hpred := List.find?_some hf
    have hk : kv.1 = k := of_decide_eq_true hpred
    have : kv = (k, v) := by
      cases kv
      simp only [Prod.mk.injEq]
      exact ⟨hk, h⟩
    exact this ▸ hmem

theorem assocGet_eq_none {κ α : Type} [DecidableEq κ] {m : List (κ × α)} {k : κ}
    (h : assocGet m k = none) : ∀ v, (k, v) ∉ m := by
  intro v hmem
  unfold assocGet at h
  cases hf : m.find? (fun kv => kv.1 = k) with
  | none =>
    have := List.find?_eq_none.mp hf (k, v) hmem
    simp at this
  | some kv => rw [hf] at h; simp at h

/-! ## Lexicographic string order and insertion sort
(model of the JS default `Array.prototype.sort()` comparator, which compares
strings by their code units; for characters below U+10000 this agrees with
comparing Lean `Char` scalar values). -/

def lexLe : List Char → List Char → Bool
  | [], _ => true
  | _ :: _, [] => false
  | a :: as, b :: bs =>
    if a.toNat < b.toNat then true
    else if a.toNat = b.toNat then lexLe as bs
    else false

def strLe (a b : String) : Bool := lexLe a.toList b.toList

theorem lexLe_total (a b : List Char) : lexLe a b = true ∨ lexLe b a = true := by
  induction a generalizing b with
  | nil => left; rfl
  | cons x xs ih =>
    cases b with
    | nil => right; rfl
    | cons y ys =>
      rcases Nat.lt_trichotomy x.toNat y.toNat with h | h | h
      · left; simp [lexLe, h]
      · rcases ih ys with h2 | h2
        · left; simp [lexLe, h, h2]
        · right; simp [lexLe, h.symm, h2, Nat.lt_irrefl]
      · right; simp [lexLe, h]

theorem strLe_total (a b : String) : strLe a b = true ∨ strLe b a = true :=
  lexLe_total a.toList b.toList

theorem lexLe_trans {a b c : List Char} (hab : lexLe a b = true) (hbc : lexLe b c = true) :
    lexLe a c = true := by
  induction a generalizing b c with
  | nil => rfl
  | cons x xs ih =>
    cases b with
    | nil => simp [lexLe] at hab
    | cons y ys =>
      cases c with
      | nil => simp [lexLe] at hbc
      | cons z zs =>
        simp only [lexLe] at hab hbc ⊢
        by_cases hxy : x.toNat < y.toNat
        · by_cases hyz : y.toNat < z.toNat
          · simp [show x.toNat < z.toNat by omega]
          · simp only [hyz, if_false] at hbc
            by_cases hyz2 : y.toNat = z.toNat
            · simp [show x.toNat < z.toNat by omega]
            · simp [hyz2] at hbc
        · simp only [hxy, if_false] at hab
          by_cases hxy2 : x.toNat = y.toNat
          · simp only [hxy2, if_true] at hab
            by_cases hyz : y.toNat < z.toNat
            · simp [show x.toNat < z.toNat by omega]
            · simp only [hyz, if_false] at hbc
              by_cases hyz2 : y.toNat = z.toNat
              · simp only [hyz2, if_true] at hbc
                have hnlt : ¬ x.toNat < z.toNat := by omega
                have heq : x.toNat = z.toNat := by omega
                simp [hnlt, heq, ih hab hbc]
              · simp [hyz2] at hbc
          · simp [hxy2] at hab

theorem strLe_trans {a b c : String} (hab : strLe a b = true) (hbc : strLe b c = true) :
    strLe a c = true :=
  lexLe_trans hab hbc

/-- Insert into a sorted list, keeping order (model of sorting a set of strings). -/
def insertSorted (x : String) : List String → List String
  | [] => [x]
  | y :: ys => if strLe x y then x :: y :: ys else y :: insertSorted x ys

/-- Insertion sort by the JS string comparator. `Array.prototype.sort` is applied
only to de-duplicated arrays in this codebase, so any comparison sort produces
the same (unique) sorted permutation. -/
def sortStr : List String → List String
  | [] => []
  | x :: xs => insertSorted x (sortStr xs)

theorem mem_insertSorted {x y : String} {l : List String} :
    y ∈ insertSorted x l ↔ y = x ∨ y ∈ l := by
  induction l with
  | nil => simp [insertSorted]
  | cons z zs ih =>
    unfold insertSorted
    split
    · simp
    · simp only [List.mem_cons, ih]
      tauto

theorem mem_sortStr {y : String} {l : List String} : y ∈ sortStr l ↔ y ∈ l := by
  induction l with
  | nil => simp [sortStr]
  | cons x xs ih => simp [sortStr, mem_insertSorted, ih]

theorem sorted_insertSorted {x : String} {l : List String}
    (h : l.Pairwise (fun a b => strLe a b = true)) :
    (insertSorted x l).Pairwise (fun a b => strLe a b = true) := by
  induction l with
  | nil => simp [insertSorted]
  | cons z zs ih =>
    unfold insertSorted
    rcases List.pairwise_cons.mp h with ⟨hz, hzs⟩
    split
    · next hle =>
      refine List.pairwise_cons.mpr ⟨?_, h⟩
      intro b hb
      rcases List.mem_cons.mp hb with rfl | hb
      · exact hle
      · exact strLe_trans hle (hz b hb)
    · next hle =>
      refine List.pairwise_cons.mpr ⟨?_, ih hzs⟩
      intro b hb
      rcases mem_insertSorted.mp hb with rfl | hb
      · rcases strLe_total z b with h' | h'
        · exact h'
        · exact absurd h' hle
      · exact hz b hb

theorem sorted_sortStr (l : List String) :
    (sortStr l).Pairwise (fun a b => strLe a b = true) := by
  induction l with
  | nil => simp [sortStr]
  | cons x xs ih => exact sorted_insertSorted ih

theorem insertSorted_perm (x : String) (l : List String) :
    (insertSorted x l).Perm (x :: l) := by
  induction l with
  | nil => simp [insertSorted]
  | cons z zs ih =>
    unfold insertSorted
    split
    · exact List.Perm.refl _
    · exact List.Perm.trans (List.Perm.cons z ih) (List.Perm.swap x z zs)

theorem sortStr_perm (l : List String) : (sortStr l).Perm l := by
  induction l with
  | nil => exact List.Perm.refl _
  | cons x xs ih =>
    exact (insertSorted_perm x (sortStr xs)).trans (List.Perm.cons x ih)

theorem nodup_sortStr {l : List String} (h : l.Nodup) : (sortStr l).Nodup :=
  (sortStr_perm l).nodup_iff.mpr h

/-! ## POSIX path helpers (models of Node `path.join`, `path.resolve`,
`path.dirname`, `path.basename` on '/'-separated paths; the process working
directory plays no role, all paths handled by the pipeline are absolute). -/

def strStarts (s pre : String) : Bool := pre.toList.isPrefixOf s.toList

def strEnds (s suf : String) : Bool := suf.toList.reverse.isPrefixOf s.toList.reverse

def splitSlash : List Char → List Char → List String
  | [], acc => [String.mk acc.reverse]
  | c :: rest, acc =>
    if c = '/' then String.mk acc.reverse :: splitSlash rest []
    else splitSlash rest (c :: acc)

def pathSegments (s : String) : List String := splitSlash s.toList []

def normSegs (isAbs : Bool) : List String → List String → List String
  | [], acc => acc.reverse
  | s :: rest, acc =>
    if s = ("") || s = (".") then normSegs isAbs rest acc
    else if s = ("..") then
      match acc with
      | [] => if isAbs then normSegs isAbs rest [] else normSegs isAbs rest [("..")]
      | t :: acc' =>
        if t = ("..") then normSegs isAbs rest (s :: acc) else normSegs isAbs rest acc'
    else normSegs isAbs rest (s :: acc)

def joinSegs (isAbs : Bool) (segs : List String) : String :=
  let body := String.intercalate ("/") segs
  if isAbs then ("/") ++ body
  else if segs.isEmpty then (".") else body

def normalizePath (s : String) : String :=
  let isAbs := strStarts s ("/")
  joinSegs isAbs (normSegs isAbs (pathSegments s) [])

def pathJoin (a b : String) : String := normalizePath (a ++ ("/") ++ b)

def pathResolve (dir p : String) : String :=
  if strStarts p ("/") then normalizePath p else normalizePath (dir ++ ("/") ++ p)

def lastSlashIdxAux : List Char → Nat → Option Nat → Option Nat
  | [], _, best => best
  | c :: rest, i, best => lastSlashIdxAux rest (i + 1) (if c = '/' then some i else best)

def lastSlashIdx (l : List Char) : Option Nat := lastSlashIdxAux l 0 none

def pathDirname (s : String) : String :=
  match lastSlashIdx s.toList with
  | none => (".")
  | some 0 => ("/")
  | some i => String.mk (s.toList.take i)

def pathBasename (s : String) : String :=
  match lastSlashIdx s.toList with
  | none => s
  | some i => String.mk (s.toList.drop (i + 1))

/-! ## Cache manager (src/utils/cacheManager.ts) -/

structure CacheRequest where
  target_directory : Option String
  target_directories : Option (List String)
  globs : Option (List String)
  regex : Option (List String)
  reference_depth : Option Int
deriving DecidableEq, Repr

/-- The canonical record hashed by `generateCacheKey` (the argument of
`JSON.stringify` in the source); `modTimes` is an insertion-ordered record. -/
structure CacheData where
  target_directory : Option String
  target_directories : Option (List String)
  globs : List String
  regex : List String
  reference_depth : Int
  files : List String
  modTimes : List (String × Nat)
deriving DecidableEq, Repr

structure CacheMetadata where
  request : CacheRequest
  generatedAt : String
  fileModificationTimes : List (String × Nat)
deriving DecidableEq, Repr

/-- On-disk state of the cache directory: payload files and metadata files by
full path. The JSON serialization of metadata is modelled as the identity
(`JSON.parse ∘ JSON.stringify` round-trips the record). -/
structure CacheState where
  payload : List (String × String)
  meta : List (String × CacheMetadata)
deriving DecidableEq, Repr

def jsOrStr (a : Option String) (b : String) : String :=
  match a with
  | some s => if s = ("") then b else s
  | none => b

def sanitizeDirName (s : String) : String :=
  String.mk (s.toList.map (fun c => if c.isAlpha || c.isDigit then c else '_'))

/-- `generateCacheKey`; the sha256-truncate step is modelled as an arbitrary
deterministic function `hash` of the canonical data. -/
def generateCacheKey (hash : CacheData → String) (request : CacheRequest)
    (filePaths : List String) (modificationTimes : List (String × Nat)) : String :=
  let cacheData : CacheData :=
    ⟨request.target_directory, request.target_directories,
      request.globs.getD [], request.regex.getD [],
      request.reference_depth.getD (-1), sortStr filePaths, modificationTimes⟩
  let dirName := jsOrStr request.target_directory
    (jsOrStr (request.target_directories.bind List.head?) ("unknown"))
  sanitizeDirName dirName ++ ("_") ++ hash cacheData ++ (".md")

/-- `getFileModificationTimes`: `fs.stat` is modelled by `fsm`; a missing or
unreadable file yields the sentinel 0. -/
def getFileModificationTimes (fsm : String → Option Nat) (filePaths : List String) :
    List (String × Nat) :=
  filePaths.foldl (fun acc p => assocSet acc p ((fsm p).getD 0)) []

def getCachedResult (hash : CacheData → String) (st : CacheState) (cacheDir : String)
    (request : CacheRequest) (filePaths : List String) (fsm : String → Option Nat) :
    Option String :=
  let modTimes := getFileModificationTimes fsm filePaths
  let cacheKey := generateCacheKey hash request filePaths modTimes
  let cachePath := pathJoin cacheDir cacheKey
  let metaPath := pathJoin cacheDir (cacheKey ++ (".meta.json"))
  match assocGet st.payload cachePath, assocGet st.meta metaPath with
  | some content, some metadata =>
    if metadata.fileModificationTimes.all
        (fun kv => (assocGet modTimes kv.1).getD 0 = kv.2) then
      some content
    else
      none
  | _, _ => none

def saveToCache (hash : CacheData → String) (st : CacheState) (cacheDir : String)
    (request : CacheRequest) (filePaths : List String) (fsm : String → Option Nat)
    (content : String) (now : String) : CacheState :=
  let modTimes := getFileModificationTimes fsm filePaths
  let cacheKey := generateCacheKey hash request filePaths modTimes
  let cachePath := pathJoin cacheDir cacheKey
  let metaPath := pathJoin cacheDir (cacheKey ++ (".meta.json"))
  ⟨assocSet st.payload cachePath content,
   assocSet st.meta metaPath ⟨request, now, modTimes⟩⟩

/-! ### Cache lemmas -/

theorem assocSet_preserve {κ α : Type} [DecidableEq κ] {m : List (κ × α)} {kv : κ × α} {k : κ}
    {v : α} (hmem : kv ∈ m) (hne : kv.1 ≠ k) : kv ∈ assocSet m k v := by
  unfold assocSet
  split
  · rw [List.mem_map]
    exact ⟨kv, hmem, by rw [if_neg hne]⟩
  · exact List.mem_append_left _ hmem

theorem gFMT_aux_val {fsm : String → Option Nat} :
    ∀ (ps : List String) (acc : List (String × Nat)),
      (∀ kv ∈ acc, kv.2 = (fsm kv.1).getD 0) →
      ∀ kv ∈ ps.foldl (fun acc p => assocSet acc p ((fsm p).getD 0)) acc,
        kv.2 = (fsm kv.1).getD 0 := by
  intro ps
  induction ps with
  | nil => intro acc hacc kv hkv; exact hacc kv hkv
  | cons q qs ih =>
    intro acc hacc kv hkv
    refine ih _ ?_ kv hkv
    intro kv' hkv'
    rcases assocSet_mem hkv' with h | h
    · exact hacc kv' h
    · rw [h]

theorem gFMT_val {fsm : String → Option Nat} {ps : List String} :
    ∀ kv ∈ getFileModificationTimes fsm ps, kv.2 = (fsm kv.1).getD 0 :=
  gFMT_aux_val ps [] (by intro kv h; cases h)

theorem gFMT_aux_mem {fsm : String → Option Nat} {p : String} :
    ∀ (ps : List String) (acc : List (String × Nat)),
      (p ∈ ps ∨ (p, (fsm p).getD 0) ∈ acc) →
      (p, (fsm p).getD 0) ∈ ps.foldl (fun acc q => assocSet acc q ((fsm q).getD 0)) acc := by
  intro ps
  induction ps with
  | nil =>
    intro acc h
    rcases h with h | h
    · cases h
    · exact h
  | cons q qs ih =>
    intro acc h
    rcases h with h | h
    · rcases List.mem_cons.mp h with rfl | hqs
      · exact ih _ (Or.inr (assocSet_self _ _ _))
      · exact ih _ (Or.inl hqs)
    · by_cases hpq : p = q
      · subst hpq
        exact ih _ (Or.inr (assocSet_self _ _ _))
      · exact ih _ (Or.inr (assocSet_preserve h hpq))

theorem gFMT_mem {fsm : String → Option Nat} {ps : List String} {p : String} (h : p ∈ ps) :
    (p, (fsm p).getD 0) ∈ getFileModificationTimes fsm ps :=
  gFMT_aux_mem ps [] (Or.inl h)

theorem gFMT_aux_keys {fsm : String → Option Nat} :
    ∀ (ps : List String) (acc : List (String × Nat)) (kv : String × Nat),
      kv ∈ ps.foldl (fun acc q => assocSet acc q ((fsm q).getD 0)) acc →
      kv ∈ acc ∨ kv.1 ∈ ps := by
  intro ps
  induction ps with
  | nil => intro acc kv h; exact Or.inl h
  | cons q qs ih =>
    intro acc kv h
    rcases ih _ kv h with h2 | h2
    · rcases assocSet_mem h2 with h3 | h3
      · exact Or.inl h3
      · right
        rw [h3]
        exact List.mem_cons_self _ _
    · exact Or.inr (List.mem_cons_of_mem _ h2)

theorem gFMT_keys {fsm : String → Option Nat} {ps : List String} :
    ∀ kv ∈ getFileModificationTimes fsm ps, kv.1 ∈ ps := by
  intro kv h
  rcases gFMT_aux_keys ps [] kv h with h2 | h2
  · cases h2
  · exact h2

theorem gFMT_lookup {fsm : String → Option Nat} {ps : List String} {p : String} (h : p ∈ ps) :
    assocGet (getFileModificationTimes fsm ps) p = some ((fsm p).getD 0) := by
  cases hf : assocGet (getFileModificationTimes fsm ps) p with
  | none => exact absurd (gFMT_mem h) (assocGet_eq_none hf _)
  | some v =>
    have hkv := assocGet_eq_some hf
    have := @gFMT_val fsm ps (p, v) hkv
    simp only at this
    rw [this]

/-- C1: after `saveToCache` stores a markdown payload into a fresh cache
directory, `getCachedResult` with the same cache directory, request and file
list returns exactly the stored markdown while no listed file's modification
time changed; and once any listed file's modification time differs from the
one recorded at store time the same lookup returns `none`.  Quantified over an
arbitrary hash function, so the invalidation part does not depend on the
absence of hash collisions. -/
theorem c1_cache_store_then_lookup
    (hash : CacheData → String) (cacheDir : String) (request : CacheRequest)
    (filePaths : List String) (fs1 : String → Option Nat) (content now : String) :
    (getCachedResult hash
        (saveToCache hash ⟨[], []⟩ cacheDir request filePaths fs1 content now)
        cacheDir request filePaths fs1 = some content) ∧
    (∀ fs2 : String → Option Nat, ∀ p ∈ filePaths,
      (fs2 p).getD 0 ≠ (fs1 p).getD 0 →
      getCachedResult hash
        (saveToCache hash ⟨[], []⟩ cacheDir request filePaths fs1 content now)
        cacheDir request filePaths fs2 = none) := by
  constructor
  · simp only [getCachedResult, saveToCache]
    have hset : ∀ {α : Type} (k : String) (v : α), assocSet ([] : List (String × α)) k v = [(k, v)] := by
      intro α k v; simp [assocSet]
    rw [hset, hset]
    have hget : ∀ {α : Type} (k : String) (v : α), assocGet [(k, v)] k = some v := by
      intro α k v; simp [assocGet, List.find?]
    rw [hget, hget]
    have hcond : ((getFileModificationTimes fs1 filePaths).all
        (fun kv => decide ((assocGet (getFileModificationTimes fs1 filePaths) kv.1).getD 0 = kv.2))) = true := by
      rw [List.all_eq_true]
      intro kv hkv
      rw [decide_eq_true_eq]
      have hkey := @gFMT_keys fs1 filePaths kv hkv
      have hval := @gFMT_val fs1 filePaths kv hkv
      rw [gFMT_lookup hkey]
      simp [hval]
    simp [hcond]
  · intro fs2 p hp hne
    simp only [getCachedResult, saveToCache]
    have hset : ∀ {α : Type} (k : String) (v : α), assocSet ([] : List (String × α)) k v = [(k, v)] := by
      intro α k v; simp [assocSet]
    rw [hset, hset]
    cases hpay : assocGet
        [(pathJoin cacheDir (generateCacheKey hash request filePaths
            (getFileModificationTimes fs1 filePaths)), content)]
        (pathJoin cacheDir (generateCacheKey hash request filePaths
            (getFileModificationTimes fs2 filePaths))) with
    | none => rfl
    | some c =>
      cases hmet : assocGet
          [(pathJoin cacheDir (generateCacheKey hash request filePaths
              (getFileModificationTimes fs1 filePaths) ++ (".meta.json")),
            (⟨request, now, getFileModificationTimes fs1 filePaths⟩ : CacheMetadata))]
          (pathJoin cacheDir (generateCacheKey hash request filePaths
              (getFileModificationTimes fs2 filePaths) ++ (".meta.json"))) with
      | none => rfl
      | some md =>
        have hmd : md = ⟨request, now, getFileModificationTimes fs1 filePaths⟩ := by
          have h2 := List.mem_singleton.mp (assocGet_eq_some hmet)
          exact congrArg Prod.snd h2
        have hfail : ((getFileModificationTimes fs1 filePaths).all
            (fun kv => decide ((assocGet (getFileModificationTimes fs2 filePaths) kv.1).getD 0 = kv.2))) = false := by
          rw [Bool.eq_false_iff]
          intro hall
          rw [List.all_eq_true] at hall
          have hentry := @gFMT_mem fs1 filePaths p hp
          have h2 := hall _ hentry
          rw [decide_eq_true_eq] at h2
          rw [@gFMT_lookup fs2 filePaths p hp] at h2
          simp only [Option.getD_some] at h2
          exact hne h2
        simp [hmd, hfail]

/-! ### C1 witness data: two files, a concrete request, a trivial hash function. -/

def c1req : CacheRequest := ⟨some ("/proj"), none, some [("**/*.dart")], none, some 2⟩

def c1fs1 : String → Option Nat := fun p =>
  if p = ("/proj/f1.dart") then some 100 else if p = ("/proj/f2.dart") then some 200 else none

def c1fs2 : String → Option Nat := fun p =>
  if p = ("/proj/f1.dart") then some 150 else if p = ("/proj/f2.dart") then some 200 else none

def c1paths : List String := [("/proj/f1.dart"), ("/proj/f2.dart")]

def c1hash : CacheData → String := fun _ => ("h")

theorem c1_cache_store_then_lookup_witness :
    (getCachedResult c1hash
        (saveToCache c1hash ⟨[], []⟩ ("/cache") c1req c1paths c1fs1 ("MD") ("t0"))
        ("/cache") c1req c1paths c1fs1 = some ("MD")) ∧
    (getCachedResult c1hash
        (saveToCache c1hash ⟨[], []⟩ ("/cache") c1req c1paths c1fs1 ("MD") ("t0"))
        ("/cache") c1req c1paths c1fs2 = none) := by
  have h := c1_cache_store_then_lookup c1hash ("/cache") c1req c1paths c1fs1 ("MD") ("t0")
  exact ⟨h.1, h.2 c1fs2 ("/proj/f1.dart") (by decide) (by decide)⟩

/-! ## JS character classes and string helpers -/

/-- JS `\s` restricted to ASCII whitespace (the sources contain no exotic
Unicode whitespace). -/
def isSpaceJS (c : Char) : Bool :=
  c = ' ' || c = '\t' || c = '\n' || c = '\r' || c = '\x0b' || c = '\x0c'

/-- JS `\w` = `[A-Za-z0-9_]`. -/
def isWordJS (c : Char) : Bool := c.isAlpha || c.isDigit || c = '_'

def trimJS (s : String) : String :=
  String.mk ((s.toList.dropWhile isSpaceJS).reverse.dropWhile isSpaceJS).reverse

def splitOnCharAux (sep : Char) : List Char → List Char → List String
  | [], acc => [String.mk acc.reverse]
  | c :: rest, acc =>
    if c = sep then String.mk acc.reverse :: splitOnCharAux sep rest []
    else splitOnCharAux sep rest (c :: acc)

/-- JS `content.split(newline)`. -/
def splitLinesJS (s : String) : List String := splitOnCharAux '\n' s.toList []

def hasChar (s : String) (c : Char) : Bool := s.toList.any (fun x => x = c)

def countChar (s : String) (c : Char) : Nat := s.toList.countP (fun x => x = c)

def containsSub : List Char → List Char → Bool
  | _, [] => true
  | [], _ :: _ => false
  | c :: rest, s :: sub => (List.isPrefixOf (s :: sub) (c :: rest)) || containsSub rest (s :: sub)

/-- JS `String.prototype.includes`. -/
def strContains (s sub : String) : Bool := containsSub s.toList sub.toList

def quoteChar : Char := Char.ofNat 39

/-! ## A small backtracking regular-expression engine.

Each JS regex literal of the source is translated symbol-for-symbol into an
`RE` value.  `reMatches` returns every way a prefix of the input can match, in
the JS engine's preference order: leftmost alternative first, greedy
repetition (more iterations) first; the head of the list is the match the JS
engine produces.  The fuel only bounds recursion depth (star iterations
consume input, so depth is bounded by input length times expression size);
call sites pass fuel far above that bound. -/

inductive RE where
  | eps
  | chr (c : Char)
  | cls (p : Char → Bool)
  | seq (a b : RE)
  | alt (a b : RE)
  | star (a : RE)
  | group (n : Nat) (a : RE)

def Caps : Type := List (Nat × List Char)

def reMatches : Nat → RE → List Char → Caps → List (List Char × Caps)
  | 0, _, _, _ => []
  | _ + 1, RE.eps, l, cp => [(l, cp)]
  | _ + 1, RE.chr _, [], _ => []
  | _ + 1, RE.chr c, x :: rest, cp => if x = c then [(rest, cp)] else []
  | _ + 1, RE.cls _, [], _ => []
  | _ + 1, RE.cls p, x :: rest, cp => if p x then [(rest, cp)] else []
  | fuel + 1, RE.seq a b, l, cp =>
    (reMatches fuel a l cp).flatMap (fun rc => reMatches fuel b rc.1 rc.2)
  | fuel + 1, RE.alt a b, l, cp => reMatches fuel a l cp ++ reMatches fuel b l cp
  | fuel + 1, RE.star a, l, cp =>
    ((reMatches fuel a l cp).filter (fun rc => rc.1.length < l.length)).flatMap
      (fun rc => reMatches fuel (RE.star a) rc.1 rc.2) ++ [(l, cp)]
  | fuel + 1, RE.group n a, l, cp =>
    (reMatches fuel a l cp).map
      (fun rc => (rc.1, assocSet rc.2 n (l.take (l.length - rc.1.length))))

/-- The JS engine's match of an anchored (`^...`) pattern against the start of
`l`: the first alternative in backtracking order. -/
def reFirst (re : RE) (l : List Char) : Option (List Char × Caps) :=
  (reMatches (1000 + 1000 * l.length) re l []).head?

def reTest (re : RE) (s : String) : Bool := (reFirst re s.toList).isSome

/-- Capture group `n` of the JS match, `none` when the whole match fails or the
group did not participate (JS `undefined`). -/
def reMatchGroup (re : RE) (s : String) (n : Nat) : Option String :=
  (reFirst re s.toList).bind (fun rc => (assocGet rc.2 n).map String.mk)

def reStr (s : String) : RE := s.toList.foldr (fun c acc => RE.seq (RE.chr c) acc) RE.eps

def rePlus (a : RE) : RE := RE.seq a (RE.star a)

def reOpt (a : RE) : RE := RE.alt a RE.eps

def reWs1 : RE := rePlus (RE.cls isSpaceJS)

def reWs0 : RE := RE.star (RE.cls isSpaceJS)

/-- JS `[\w<>\[\]?]`, the char class used for type tokens. -/
def isTypeTokJS (c : Char) : Bool :=
  isWordJS c || c = '<' || c = '>' || c = '[' || c = ']' || c = '?'

/-! Translations of the regex literals of `codeExtractor.ts` (each `^` anchor
is realized by matching at position 0 only). -/

/-- `^(abstract\s+)?(class|mixin|enum|extension)\s+(\w+)` -/
def classPattern : RE :=
  RE.seq (reOpt (RE.group 1 (RE.seq (reStr ("abstract")) reWs1)))
    (RE.seq (RE.group 2 (RE.alt (reStr ("class"))
        (RE.alt (reStr ("mixin")) (RE.alt (reStr ("enum")) (reStr ("extension"))))))
      (RE.seq reWs1 (RE.group 3 (rePlus (RE.cls isWordJS)))))

/-- `^\s*(static\s+|final\s+|const\s+|late\s+)*([\w<>\[\]?]+\s+)?(get\s+|set\s+)?(\w+)\s*\(` -/
def methodPattern : RE :=
  RE.seq reWs0
    (RE.seq (RE.star (RE.group 1 (RE.alt (RE.seq (reStr ("static")) reWs1)
        (RE.alt (RE.seq (reStr ("final")) reWs1)
          (RE.alt (RE.seq (reStr ("const")) reWs1) (RE.seq (reStr ("late")) reWs1))))))
      (RE.seq (reOpt (RE.group 2 (RE.seq (rePlus (RE.cls isTypeTokJS)) reWs1)))
        (RE.seq (reOpt (RE.group 3 (RE.alt (RE.seq (reStr ("get")) reWs1)
            (RE.seq (reStr ("set")) reWs1))))
          (RE.seq (RE.group 4 (rePlus (RE.cls isWordJS)))
            (RE.seq reWs0 (RE.chr '('))))))

/-- `^\s*(\w+)\s*\.\s*(\w+)\s*\(` (named constructors) -/
def constructorPattern : RE :=
  RE.seq reWs0 (RE.seq (RE.group 1 (rePlus (RE.cls isWordJS)))
    (RE.seq reWs0 (RE.seq (RE.chr '.')
      (RE.seq reWs0 (RE.seq (RE.group 2 (rePlus (RE.cls isWordJS)))
        (RE.seq reWs0 (RE.chr '(')))))))

/-- `^\s*([\w<>\[\]?]+\s+)?get\s+(\w+)\s*[{=>]` -/
def getterPattern : RE :=
  RE.seq reWs0 (RE.seq (reOpt (RE.group 1 (RE.seq (rePlus (RE.cls isTypeTokJS)) reWs1)))
    (RE.seq (reStr ("get")) (RE.seq reWs1
      (RE.seq (RE.group 2 (rePlus (RE.cls isWordJS)))
        (RE.seq reWs0 (RE.cls (fun c => c = '\x7b' || c = '=' || c = '>')))))))

/-- `^\s*set\s+(\w+)\s*\(` -/
def setterPattern : RE :=
  RE.seq reWs0 (RE.seq (reStr ("set")) (RE.seq reWs1
    (RE.seq (RE.group 1 (rePlus (RE.cls isWordJS))) (RE.seq reWs0 (RE.chr '(')))))

/-- `new RegExp('^' + className + '\\s*\\(')`; `className` stems from `\w+`, so
its characters are regex literals. -/
def ctorNamePattern (className : String) : RE :=
  RE.seq (reStr className) (RE.seq reWs0 (RE.chr '('))

/-- `^([\w<>[\]?]+\s+)?(\w+)\s*\(` -/
def functionPattern : RE :=
  RE.seq (reOpt (RE.group 1 (RE.seq (rePlus (RE.cls isTypeTokJS)) reWs1)))
    (RE.seq (RE.group 2 (rePlus (RE.cls isWordJS))) (RE.seq reWs0 (RE.chr '(')))

/-! ## Structure extractor (src/utils/codeExtractor.ts)

`extractDocumentation`'s backward loop can fail to make progress (its
empty-line branch `continue`s without decrementing the index), so it is
embedded with fuel; `none` means the loop ran forever.  All other loops of the
extractor strictly advance their index, so their internal fuel of
`lines.length + 1` is always sufficient and never observable. -/

structure MethodInfo where
  name : String
  signature : String
  documentation : Option String
deriving DecidableEq, Repr

structure ClassInfo where
  name : String
  signature : String
  documentation : Option String
  methods : List MethodInfo
deriving DecidableEq, Repr

structure ExtractedCode where
  filePath : String
  classes : List ClassInfo
  functions : List MethodInfo
deriving DecidableEq, Repr

/-- The `while (index >= 0)` loop of `extractDocumentation`: collect `///`
lines backward; an empty line inside a doc block `continue`s WITHOUT
decrementing `index` (as in the source). -/
def extractDocLoop (lines : List String) : Nat → Int → List String → Option (List String)
  | 0, _, _ => none
  | fuel + 1, index, docLines =>
    if index < 0 then some docLines
    else
      match lines.get? index.toNat with
      | none => some docLines
      | some line =>
        let t := trimJS line
        if strStarts t ("///") then
          extractDocLoop lines fuel (index - 1) (trimJS (String.mk (t.toList.drop 3)) :: docLines)
        else if t = ("") ∧ docLines.length > 0 then
          extractDocLoop lines fuel index docLines
        else some docLines

def extractDocumentation (lines : List String) (startIndex : Nat) (fuel : Nat) :
    Option (Option String) :=
  (extractDocLoop lines fuel ((startIndex : Int) - 1) []).map
    (fun docLines =>
      if docLines.length > 0 then some (String.intercalate ("\n") docLines) else none)

/-- Balance-scanner state of `extractCompleteSignature` (brace/paren/bracket
counts and string-literal state). -/
structure ScanState where
  openBraces : Int
  openParens : Int
  openBrackets : Int
  inString : Bool
  stringChar : Char
deriving DecidableEq, Repr

def firstIdxAux (c : Char) : List Char → Nat → Option Nat
  | [], _ => none
  | x :: rest, i => if x = c then some i else firstIdxAux c rest (i + 1)

/-- The source's escape test reads `line[line.indexOf(char) - 1]` — the
character before the FIRST occurrence of `char` in the whole line, not before
the current position; modelled literally. -/
def jsEscCheck (full : List Char) (c : Char) : Bool :=
  match firstIdxAux c full 0 with
  | none => true
  | some 0 => true
  | some (i + 1) =>
    match full.get? i with
    | some ch => decide (ch ≠ '\\')
    | none => true

def scanStep (full : List Char) (st : ScanState) (c : Char) : ScanState :=
  if st.inString = false then
    if c = '"' ∨ c = quoteChar then
      ⟨st.openBraces, st.openParens, st.openBrackets, true, c⟩
    else if c = '\x7b' then ⟨st.openBraces + 1, st.openParens, st.openBrackets, st.inString, st.stringChar⟩
    else if c = '\x7d' then ⟨st.openBraces - 1, st.openParens, st.openBrackets, st.inString, st.stringChar⟩
    else if c = '(' then ⟨st.openBraces, st.openParens + 1, st.openBrackets, st.inString, st.stringChar⟩
    else if c = ')' then ⟨st.openBraces, st.openParens - 1, st.openBrackets, st.inString, st.stringChar⟩
    else if c = '[' then ⟨st.openBraces, st.openParens, st.openBrackets + 1, st.inString, st.stringChar⟩
    else if c = ']' then ⟨st.openBraces, st.openParens, st.openBrackets - 1, st.inString, st.stringChar⟩
    else st
  else if c = st.stringChar ∧ jsEscCheck full c then
    ⟨st.openBraces, st.openParens, st.openBrackets, false, st.stringChar⟩
  else st

def scanLine (l : List Char) (st : ScanState) : ScanState := l.foldl (scanStep l) st

def unbalancedCond (st : ScanState) (signature : String) : Prop :=
  st.openBraces > 0 ∨ st.openParens > 0 ∨ st.openBrackets > 0 ∨ st.inString = true ∨
    strEnds (trimJS signature) (",") = true ∨ strEnds (trimJS signature) ("=>") = true

instance (st : ScanState) (signature : String) : Decidable (unbalancedCond st signature) := by
  unfold unbalancedCond
  infer_instance

/-- The line-accumulation loop of `extractCompleteSignature`.  The index
strictly increases and is bounded by `lines.length - 1`, so the caller's fuel
of `lines.length + 1` always suffices. -/
def sigLoop (lines : List String) : Nat → Nat → String → ScanState → String
  | 0, _, signature, _ => signature
  | fuel + 1, index, signature, st =>
    if unbalancedCond st signature ∧ index < lines.length - 1 then
      match lines.get? (index + 1) with
      | none => sigLoop lines fuel (index + 1) signature st
      | some nextLine =>
        if nextLine = ("") then sigLoop lines fuel (index + 1) signature st
        else
          let signature := signature ++ (" ") ++ trimJS nextLine
          let st := scanLine nextLine.toList st
          if st.openBraces = 0 ∧ st.openParens = 0 ∧ st.openBrackets = 0 ∧ st.inString = false ∧
              (hasChar nextLine '\x7b' ∨ hasChar nextLine ';') then
            signature
          else
            sigLoop lines fuel (index + 1) signature st
    else signature

/-- Collapse every whitespace run to a single space (`replace(/\s+/g, ' ')`). -/
def collapseWsAux : List Char → Bool → List Char
  | [], _ => []
  | c :: rest, prevWs =>
    if isSpaceJS c then
      if prevWs then collapseWsAux rest true else ' ' :: collapseWsAux rest true
    else c :: collapseWsAux rest false

def collapseWs (s : String) : String := trimJS (String.mk (collapseWsAux s.toList false))

def extractCompleteSignature (lines : List String) (startIndex : Nat) : String :=
  let signature := (lines.get? startIndex).getD ("")
  let st := scanLine signature.toList ⟨0, 0, 0, false, ' '⟩
  collapseWs (sigLoop lines (lines.length + 1) startIndex signature st)

/-- The find-opening-brace loop of `extractClasses`: returns the index of the
line containing the brace and the running brace count, or `none` when the file
ends first (`classStarted` stays false and the class is skipped). -/
def findClassOpen (lines : List String) : Nat → Nat → Option (Nat × Int)
  | 0, _ => none
  | fuel + 1, j =>
    match lines.get? j with
    | none => none
    | some currentLine =>
      if currentLine = ("") then findClassOpen lines fuel (j + 1)
      else if hasChar currentLine '\x7b' then
        some (j, (countChar currentLine '\x7b' : Int) - (countChar currentLine '\x7d' : Int))
      else findClassOpen lines fuel (j + 1)

/-- The method-scan loop of `extractClasses` (runs while `j < lines.length`
and the brace count is positive); returns the collected methods and the final
`j`, or `none` when a documentation scan diverges. -/
def methodLoop (lines : List String) (className : String) (docFuel : Nat) :
    Nat → Nat → Int → List MethodInfo → Option (List MethodInfo × Nat)
  | 0, j, _, acc => some (acc, j)
  | fuel + 1, j, braceCount, acc =>
    if j < lines.length ∧ braceCount > 0 then
      match lines.get? j with
      | none => methodLoop lines className docFuel fuel (j + 1) braceCount acc
      | some methodLine =>
        let t := trimJS methodLine
        let braceCount := braceCount + (countChar methodLine '\x7b' : Int) -
          (countChar methodLine '\x7d' : Int)
        if t = ("") ∨ strStarts t ("//") then
          methodLoop lines className docFuel fuel (j + 1) braceCount acc
        else if reTest (ctorNamePattern className) t ∨ reTest constructorPattern t then
          let cname :=
            if reTest (ctorNamePattern className) t then className
            else jsOrStr (reMatchGroup constructorPattern t 2) className
          match extractDocumentation lines j docFuel with
          | none => none
          | some mdoc =>
            methodLoop lines className docFuel fuel (j + 1) braceCount
              (acc ++ [⟨cname, extractCompleteSignature lines j, mdoc⟩])
        else if reTest getterPattern t then
          match reMatchGroup getterPattern t 2 with
          | some g2 =>
            if g2 = ("") then methodLoop lines className docFuel fuel (j + 1) braceCount acc
            else
              match extractDocumentation lines j docFuel with
              | none => none
              | some mdoc =>
                methodLoop lines className docFuel fuel (j + 1) braceCount
                  (acc ++ [⟨("get ") ++ g2, extractCompleteSignature lines j, mdoc⟩])
          | none => methodLoop lines className docFuel fuel (j + 1) braceCount acc
        else if reTest setterPattern t then
          match reMatchGroup setterPattern t 1 with
          | some g1 =>
            if g1 = ("") then methodLoop lines className docFuel fuel (j + 1) braceCount acc
            else
              match extractDocumentation lines j docFuel with
              | none => none
              | some mdoc =>
                methodLoop lines className docFuel fuel (j + 1) braceCount
                  (acc ++ [⟨("set ") ++ g1, extractCompleteSignature lines j, mdoc⟩])
          | none => methodLoop lines className docFuel fuel (j + 1) braceCount acc
        else if reTest methodPattern t then
          match reMatchGroup methodPattern t 4 with
          | some m4 =>
            match extractDocumentation lines j docFuel with
            | none => none
            | some mdoc =>
              methodLoop lines className docFuel fuel (j + 1) braceCount
                (acc ++ [⟨m4, extractCompleteSignature lines j, mdoc⟩])
          | none => methodLoop lines className docFuel fuel (j + 1) braceCount acc
        else
          methodLoop lines className docFuel fuel (j + 1) braceCount acc
    else some (acc, j)

/-- The outer line loop of `extractClasses`; after a class is handled the
index jumps to the end of its body (`i = j` in the source). -/
def classLoop (lines : List String) (docFuel : Nat) :
    Nat → Nat → List ClassInfo → Option (List ClassInfo)
  | 0, _, acc => some acc
  | fuel + 1, i, acc =>
    if i < lines.length then
      match lines.get? i with
      | none => classLoop lines docFuel fuel (i + 1) acc
      | some line =>
        if line = ("") then classLoop lines docFuel fuel (i + 1) acc
        else
          match reMatchGroup classPattern (trimJS line) 3 with
          | none => classLoop lines docFuel fuel (i + 1) acc
          | some className =>
            let signature := extractCompleteSignature lines i
            match extractDocumentation lines i docFuel with
            | none => none
            | some documentation =>
              match findClassOpen lines (lines.length + 1) i with
              | none => classLoop lines docFuel fuel (i + 1) acc
              | some jb =>
                match methodLoop lines className docFuel (lines.length + 1)
                    (jb.1 + 1) jb.2 [] with
                | none => none
                | some mj =>
                  classLoop lines docFuel fuel (mj.2 + 1)
                    (acc ++ [⟨className, signature, documentation, mj.1⟩])
    else some acc

def extractClasses (content : String) (docFuel : Nat) : Option (List ClassInfo) :=
  let lines := splitLinesJS content
  classLoop lines docFuel (lines.length + 1) 0 []

/-- `removeClassBodies`: blank out lines inside class-like bodies so methods
are not re-detected as top-level functions. -/
def removeClassBodiesAux : List String → Bool → Int → List String
  | [], _, _ => []
  | line :: rest, inClass, braceCount =>
    if line = ("") then line :: removeClassBodiesAux rest inClass braceCount
    else
      let t := trimJS line
      let inClass :=
        if inClass = false ∧ (strContains t ("class ") = true ∨ strContains t ("enum ") = true ∨
            strContains t ("mixin ") = true ∨ strContains t ("extension ") = true) then
          true
        else inClass
      if inClass then
        let braceCount := braceCount + (countChar line '\x7b' : Int) - (countChar line '\x7d' : Int)
        (if braceCount > 0 then ("") else line) ::
          removeClassBodiesAux rest (if braceCount = 0 then false else inClass) braceCount
      else line :: removeClassBodiesAux rest inClass braceCount

def removeClassBodies (lines : List String) : List String := removeClassBodiesAux lines false 0

/-- The line loop of `extractFunctions` (over the cleaned lines; signatures and
documentation are extracted from the ORIGINAL lines, as in the source). -/
def funcLoop (lines cleanedLines : List String) (docFuel : Nat) :
    Nat → Nat → List MethodInfo → Option (List MethodInfo)
  | 0, _, acc => some acc
  | fuel + 1, i, acc =>
    if i < cleanedLines.length then
      match cleanedLines.get? i with
      | none => funcLoop lines cleanedLines docFuel fuel (i + 1) acc
      | some line =>
        if line = ("") then funcLoop lines cleanedLines docFuel fuel (i + 1) acc
        else
          let t := trimJS line
          if t = ("") ∨ strStarts t ("//") = true ∨ strStarts t ("import") = true ∨
              strStarts t ("export") = true ∨ strStarts t ("part") = true ∨
              strStarts t ("library") = true ∨ strStarts t ("typedef") = true ∨
              strStarts t ("const ") = true ∨ strStarts t ("final ") = true ∨
              strStarts t ("var ") = true ∨ strContains t ("class ") = true ∨
              strContains t ("enum ") = true ∨ strContains t ("mixin ") = true then
            funcLoop lines cleanedLines docFuel fuel (i + 1) acc
          else
            match reMatchGroup functionPattern t 2 with
            | none => funcLoop lines cleanedLines docFuel fuel (i + 1) acc
            | some functionName =>
              if functionName = ("if") ∨ functionName = ("for") ∨ functionName = ("while") ∨
                  functionName = ("switch") ∨ functionName = ("catch") ∨
                  functionName = ("assert") then
                funcLoop lines cleanedLines docFuel fuel (i + 1) acc
              else
                match extractDocumentation lines i docFuel with
                | none => none
                | some documentation =>
                  funcLoop lines cleanedLines docFuel fuel (i + 1)
                    (acc ++ [⟨functionName, extractCompleteSignature lines i, documentation⟩])
    else some acc

def extractFunctions (content : String) (docFuel : Nat) : Option (List MethodInfo) :=
  let lines := splitLinesJS content
  let cleanedLines := removeClassBodies lines
  funcLoop lines cleanedLines docFuel (cleanedLines.length + 1) 0 []

/-- `extractCodeFromFile`: reads the file (`readf p = none` models any read
failure, caught by the source's try/catch) and extracts classes and functions;
the outer `none` is divergence of a documentation scan. -/
def extractCodeFromFile (readf : String → Option String) (filePath : String) (docFuel : Nat) :
    Option ExtractedCode :=
  match readf filePath with
  | some content =>
    match extractClasses content docFuel, extractFunctions content docFuel with
    | some classes, some functions => some ⟨filePath, classes, functions⟩
    | _, _ => none
  | none => some ⟨filePath, [], []⟩

/-! ### C2: the documentation collector loops forever when a doc block is
preceded by a blank line (`continue` without decrementing the index). -/

def c2content : String := "\n/// doc\nclass Foo \x7b\x7d"

def c2lines : List String := [(""), ("/// doc"), ("class Foo \x7b\x7d")]

theorem c2_doc_loop_stuck : ∀ fuel, extractDocLoop c2lines fuel 0 [("doc")] = none := by
  intro fuel
  induction fuel with
  | zero => rfl
  | succ n ih => exact ih

theorem c2_doc_diverges : ∀ fuel, extractDocumentation c2lines 2 fuel = none := by
  intro fuel
  cases fuel with
  | zero => rfl
  | succ n =>
    have h1 : extractDocLoop c2lines (n + 1) 1 [] = extractDocLoop c2lines n 0 [("doc")] := rfl
    unfold extractDocumentation
    rw [show ((2 : Nat) : Int) - 1 = 1 from rfl, h1, c2_doc_loop_stuck n]
    rfl

/-- When the line at `i` declares a class and the documentation scan at `i`
diverges, the class loop diverges. -/
theorem classLoop_doc_none {lines : List String} {docFuel fuel i : Nat}
    {acc : List ClassInfo} {line className : String}
    (hi : i < lines.length) (hget : lines.get? i = some line) (hne : ¬ line = (""))
    (hcm : reMatchGroup classPattern (trimJS line) 3 = some className)
    (hdoc : extractDocumentation lines i docFuel = none) :
    classLoop lines docFuel (fuel + 1) i acc = none := by
  rw [classLoop]
  rw [if_pos hi]
  simp only [hget, hne, hcm, hdoc, ite_false, if_false]

/-- C2: FALSE of the code — structure extraction does NOT terminate on every
input.  On the file `"\n/// doc\nclass Foo \x7b\x7d"` (a documentation block
preceded by a blank line) the upward documentation-collection loop hits the
blank line with a non-empty doc accumulator and `continue`s without moving the
index, so `extractClasses` diverges: the fueled embedding returns `none`
(fuel exhausted) for EVERY fuel. -/
theorem c2_extraction_diverges : ∀ docFuel, extractClasses c2content docFuel = none := by
  intro docFuel
  show classLoop c2lines docFuel 4 0 [] = none
  have e1 : classLoop c2lines docFuel 4 0 [] = classLoop c2lines docFuel 3 1 [] := rfl
  have e2 : classLoop c2lines docFuel 3 1 [] = classLoop c2lines docFuel 2 2 [] := rfl
  rw [e1, e2]
  have h2 : (2 : Nat) = 1 + 1 := rfl
  nth_rewrite 1 [h2]
  exact @classLoop_doc_none c2lines docFuel 1 2 [] ("class Foo \x7b\x7d") ("Foo")
    (by decide) rfl (by decide) (by decide) (c2_doc_diverges docFuel)

/-- C7: `extractCodeFromFile` never propagates a read failure: whenever the
read fails (missing, unreadable, undecodable file — `readf filePath = none`),
it returns the structure with the given path and empty class/function lists. -/
theorem c7_extract_read_failure (readf : String → Option String) (filePath : String)
    (docFuel : Nat) (h : readf filePath = none) :
    extractCodeFromFile readf filePath docFuel = some ⟨filePath, [], []⟩ := by
  unfold extractCodeFromFile
  rw [h]

theorem c7_extract_read_failure_witness :
    extractCodeFromFile (fun _ => none) ("/missing.dart") 0 = some ⟨("/missing.dart"), [], []⟩ :=
  c7_extract_read_failure (fun _ => none) ("/missing.dart") 0 rfl

/-! ### C9: `class Foo { bar() {} }` -/

/-- C9 counterexample: on the file whose text IS the one-line declaration
`class Foo \x7b bar() \x7b\x7d \x7d`, extraction yields one ClassInfo `Foo`
whose methods list is EMPTY — not one method `bar` — because the method-scan
loop only starts on the line after the one containing the opening brace. -/
theorem c9_one_line_no_methods :
    extractClasses ("class Foo \x7b bar() \x7b\x7d \x7d") 100 =
      some [⟨("Foo"), ("class Foo \x7b bar() \x7b\x7d \x7d"), none, []⟩] := by
  decide

/-- C9 (amended): when the declaration spans separate lines (the method on its
own line inside the balanced body), extraction yields exactly one ClassInfo
named `Foo` whose methods list contains exactly one method named `bar`. -/
theorem c9_multiline_one_method_bar :
    extractClasses ("class Foo \x7b\n  bar() \x7b\x7d\n\x7d") 100 =
      some [⟨("Foo"), ("class Foo \x7b bar() \x7b\x7d \x7d"), none,
        [⟨("bar"), ("bar() \x7b\x7d"), none⟩]⟩] := by
  decide

/-! ## Reference tracker (the referenceTracker source file)

The project is modelled as a finite directory tree rooted at `projectRoot`;
paths outside the tree (e.g. ancestors consulted by the pubspec search) do not
exist in the model. -/

inductive FsEntry where
  | file (name : String) (content : Option String)
  | dir (name : String) (entries : List FsEntry)

/-- `isSourceFile`: fixed allow-list of source extensions. -/
def isSourceFile (filename : String) : Bool :=
  [(".dart"), (".js"), (".jsx"), (".ts"), (".tsx"), (".py"), (".java"), (".kt"),
    (".swift"), (".go"), (".rs"), (".rb"), (".php"), (".cpp"), (".c"), (".h"),
    (".cs")].any (fun ext => strEnds filename ext)

mutual
/-- `findAllSourceFiles`' walk: depth-first in directory order, skipping
hidden directories, `node_modules`, `build` and `.dart_tool`. -/
def walkEntry (base : String) : FsEntry → List String
  | FsEntry.file name _ => if isSourceFile name then [pathJoin base name] else []
  | FsEntry.dir name entries =>
    if strStarts name (".") = true ∨ name = ("node_modules") ∨ name = ("build") ∨
        name = (".dart_tool") then []
    else walkEntries (pathJoin base name) entries
def walkEntries (base : String) : List FsEntry → List String
  | [] => []
  | e :: rest => walkEntry base e ++ walkEntries base rest
end

mutual
/-- Locate the entry at path `p`; `some content` when a file node exists there
(`fs.access` succeeds on it; `content = none` models an unreadable file). -/
def findFileEntry (base p : String) : FsEntry → Option (Option String)
  | FsEntry.file name content => if pathJoin base name = p then some content else none
  | FsEntry.dir name entries => findFileEntries (pathJoin base name) p entries
def findFileEntries (base p : String) : List FsEntry → Option (Option String)
  | [] => none
  | e :: rest =>
    match findFileEntry base p e with
    | some c => some c
    | none => findFileEntries base p rest
end

structure ProjEnv where
  projectRoot : String
  entries : List FsEntry

def envReadFile (env : ProjEnv) (p : String) : Option String :=
  match findFileEntries env.projectRoot p env.entries with
  | some (some c) => some c
  | _ => none

def envExists (env : ProjEnv) (p : String) : Bool :=
  (findFileEntries env.projectRoot p env.entries).isSome

def envSourceFiles (env : ProjEnv) : List String := walkEntries env.projectRoot env.entries

def isQuoteJS (c : Char) : Bool := c = quoteChar || c = '"'

def stripLit : List Char → List Char → Option (List Char)
  | [], l => some l
  | _ :: _, [] => none
  | p :: ps, c :: cs => if c = p then stripLit ps cs else none

/-- One anchored attempt of `/^import\s+['"]([^'"]+)['"]/` (deterministic — every
adjacent pair of sub-patterns has disjoint character sets, so the JS engine
never backtracks here).  Returns the captured path and the rest of the input. -/
def tryImportMatch (l : List Char) : Option (String × List Char) :=
  match stripLit ("import").toList l with
  | none => none
  | some r1 =>
    let sp := r1.span isSpaceJS
    if sp.1.isEmpty then none
    else
      match sp.2 with
      | [] => none
      | q :: r2 =>
        if isQuoteJS q then
          let body := r2.span (fun c => !(isQuoteJS c))
          if body.1.isEmpty then none
          else
            match body.2 with
            | [] => none
            | q2 :: r3 => if isQuoteJS q2 then some (String.mk body.1, r3) else none
        else none

/-- The `importRegex.exec` loop with the `gm` flags: candidate positions are
line starts (position 0 or just after a line terminator); after a hit the scan
resumes right after the match.  Every step advances at least one character, so
fuel `l.length + 1` always suffices. -/
def importScan : Nat → List Char → Bool → List String
  | 0, _, _ => []
  | fuel + 1, l, atLineStart =>
    if atLineStart then
      match tryImportMatch l with
      | some sr => sr.1 :: importScan fuel sr.2 false
      | none =>
        match l with
        | [] => []
        | c :: rest => importScan fuel rest (decide (c = '\n') || decide (c = '\r'))
    else
      match l with
      | [] => []
      | c :: rest => importScan fuel rest (decide (c = '\n') || decide (c = '\r'))

/-- `extractImports`: read failures yield `[]` (caught in the source). -/
def extractImports (readf : String → Option String) (filePath : String) : List String :=
  match readf filePath with
  | none => []
  | some content => importScan (content.toList.length + 1) content.toList true

/-- The `while (currentDir !== path.dirname(currentDir))` pubspec search;
`path.dirname` shortens its argument until a fixpoint, so fuel
`currentDir.length + 3` always suffices. -/
def pubspecLoop (exists? : String → Bool) : Nat → String → Option String
  | 0, _ => none
  | fuel + 1, currentDir =>
    if pathDirname currentDir = currentDir then none
    else if exists? (pathJoin currentDir ("pubspec.yaml")) then some currentDir
    else pubspecLoop exists? fuel (pathDirname currentDir)

def resolveImportPath (exists? : String → Bool) (importPath currentFile projectRoot : String) :
    Option String :=
  if strStarts importPath ("package:") then
    let parts := pathSegments (String.mk (importPath.toList.drop 8))
    let moduleName := (parts.head?).getD ("")
    let filePath := String.intercalate ("/") (parts.drop 1)
    let currentModule := pathBasename (pathDirname (pathDirname currentFile))
    if moduleName = currentModule then
      some (pathJoin (pathJoin (pathJoin projectRoot moduleName) ("lib")) filePath)
    else none
  else if strStarts importPath (".") then
    some (pathResolve (pathDirname currentFile) importPath)
  else if strStarts importPath ("/") = false then
    match pubspecLoop exists? ((pathDirname currentFile).length + 3) (pathDirname currentFile) with
    | some packageDir => some (pathJoin (pathJoin packageDir ("lib")) importPath)
    | none => none
  else none

structure FileReference where
  file : String
  imports : List String
  depth : Nat
deriving DecidableEq, Repr

abbrev RefMap : Type := List (String × FileReference)

/-- The inner `for (const importPath of imports)` loop: resolved imports that
are already tracked in the (current) reference map. -/
def collectTracked (env : ProjEnv) (refs : RefMap) (file : String) : List String → List String
  | [] => []
  | imp :: rest =>
    match resolveImportPath (envExists env) imp file env.projectRoot with
    | some resolvedPath =>
      if (assocGet refs resolvedPath).isSome then
        resolvedPath :: collectTracked env refs file rest
      else collectTracked env refs file rest
    | none => collectTracked env refs file rest

structure PassState where
  refs : RefMap
  processed : List String
  found : List FileReference

/-- One full pass over the source files at a given depth (the
`for (const file of filesToSearch)` loop).  The reference map is consulted and
updated DURING the pass, exactly as in the source. -/
def passOnce (env : ProjEnv) (currentDepth : Nat) : List String → PassState → PassState
  | [], st => st
  | file :: rest, st =>
    if file ∈ st.processed then passOnce env currentDepth rest st
    else
      if (collectTracked env st.refs file (extractImports (envReadFile env) file)).isEmpty then
        passOnce env currentDepth rest st
      else
        passOnce env currentDepth rest
          ⟨assocSet st.refs file
              ⟨file, collectTracked env st.refs file (extractImports (envReadFile env) file),
                currentDepth⟩,
            st.processed ++ [file],
            st.found ++
              [⟨file, collectTracked env st.refs file (extractImports (envReadFile env) file),
                currentDepth⟩]⟩

/-- The depth loop of `findReferencingFiles` (`while (maxDepth === -1 ||
currentDepth <= maxDepth)`); `none` is fuel exhaustion. -/
def refLoop (env : ProjEnv) (maxDepth : Int) : Nat → RefMap → List String → Nat → Option RefMap
  | 0, _, _, _ => none
  | fuel + 1, refs, processed, currentDepth =>
    if maxDepth = -1 ∨ (currentDepth : Int) ≤ maxDepth then
      if (passOnce env currentDepth (envSourceFiles env) ⟨refs, processed, []⟩).found.isEmpty then
        some (passOnce env currentDepth (envSourceFiles env) ⟨refs, processed, []⟩).refs
      else
        refLoop env maxDepth fuel
          (passOnce env currentDepth (envSourceFiles env) ⟨refs, processed, []⟩).refs
          (passOnce env currentDepth (envSourceFiles env) ⟨refs, processed, []⟩).processed
          (currentDepth + 1)
    else some refs

def findReferencingFiles (env : ProjEnv) (targetFiles : List String) (maxDepth : Int) :
    Option RefMap :=
  let refs : RefMap := targetFiles.foldl (fun m f => assocSet m f ⟨f, [], 0⟩) []
  let processed := targetFiles.foldl (fun s f => if f ∈ s then s else s ++ [f]) []
  refLoop env maxDepth ((envSourceFiles env).length + 1) refs processed 1

/-! ### C3: the synthetic three-file chain A←B←C -/

/-- The chain project with directory order c, b, a (so each pass scans C
before B). -/
def c3envCBA : ProjEnv := ⟨("/proj"),
  [FsEntry.file ("c.dart") (some ("import './b.dart'")),
   FsEntry.file ("b.dart") (some ("import './a.dart'")),
   FsEntry.file ("a.dart") (some (""))]⟩

/-- The same chain project with directory order a, b, c (so each pass scans B
before C). -/
def c3envABC : ProjEnv := ⟨("/proj"),
  [FsEntry.file ("a.dart") (some ("")),
   FsEntry.file ("b.dart") (some ("import './a.dart'")),
   FsEntry.file ("c.dart") (some ("import './b.dart'"))]⟩

/-- C3 counterexample: in the three-file chain project (C imports B, B imports
A) with directory order a, b, c, the pass at depth 1 adds B and then — because
`references.has` consults the map being mutated during the same pass — also
adds C at depth 1, not 2; and with `maxDepth = 1` the result DOES contain C.
Both halves of the claim fail for this walk order. -/
theorem c3_same_pass_chaining_counterexample :
    ((findReferencingFiles c3envABC [("/proj/a.dart")] (-1)).map
        (fun m => assocGet m ("/proj/c.dart")) =
      some (some ⟨("/proj/c.dart"), [("/proj/b.dart")], 1⟩)) ∧
    ((findReferencingFiles c3envABC [("/proj/a.dart")] 1).map
        (fun m => assocGet m ("/proj/c.dart")) =
      some (some ⟨("/proj/c.dart"), [("/proj/b.dart")], 1⟩)) := by
  decide

/-- C3 (amended): in the three-file chain project, PROVIDED each pass scans C
before B (here: directory order c, b, a), `maxDepth = -1` discovers B at depth
1 and C at depth 2, and `maxDepth = 1` discovers B at depth 1 but not C.  (If
B is scanned before C within a pass, C is discovered at depth 1 in that same
pass, because the reference map is consulted as it is updated.) -/
theorem c3_chain_depths_scan_order :
    ((findReferencingFiles c3envCBA [("/proj/a.dart")] (-1)).map
        (fun m => (assocGet m ("/proj/b.dart"), assocGet m ("/proj/c.dart"))) =
      some (some ⟨("/proj/b.dart"), [("/proj/a.dart")], 1⟩,
            some ⟨("/proj/c.dart"), [("/proj/b.dart")], 2⟩)) ∧
    ((findReferencingFiles c3envCBA [("/proj/a.dart")] 1).map
        (fun m => (assocGet m ("/proj/b.dart"), assocGet m ("/proj/c.dart"))) =
      some (some ⟨("/proj/b.dart"), [("/proj/a.dart")], 1⟩, none)) := by
  decide

/-! ### C6: the depth loop reaches a fixed point -/

theorem countP_lt_of_witness {α : Type} {p q : α → Bool} (S : List α)
    (himp : ∀ a ∈ S, p a = true → q a = true) (a0 : α) (ha0 : a0 ∈ S)
    (hq : q a0 = true) (hp : p a0 = false) :
    S.countP p < S.countP q := by
  induction S with
  | nil => cases ha0
  | cons x xs ih =>
    rw [List.countP_cons, List.countP_cons]
    rcases List.mem_cons.mp ha0 with rfl | hmem
    · have hle : xs.countP p ≤ xs.countP q :=
        List.countP_mono_left (fun a ha hpa => himp a (List.mem_cons_of_mem _ ha) hpa)
      simp only [hp, hq, Bool.false_eq_true, if_false, if_true]
      omega
    · have hlt := ih (fun a ha hpa => himp a (List.mem_cons_of_mem _ ha) hpa) hmem
      by_cases hpx : p x = true
      · have hqx := himp x (List.mem_cons_self x xs) hpx
        simp only [hpx, hqx, if_true]
        omega
      · rw [Bool.not_eq_true] at hpx
        by_cases hqx : q x = true
        · simp only [hpx, hqx, Bool.false_eq_true, if_false, if_true]
          omega
        · rw [Bool.not_eq_true] at hqx
          simp only [hpx, hqx, Bool.false_eq_true, if_false]
          omega

theorem passOnce_processed_mono (env : ProjEnv) (d : Nat) :
    ∀ (L : List String) (st : PassState) (x : String),
      x ∈ st.processed → x ∈ (passOnce env d L st).processed := by
  intro L
  induction L with
  | nil => intro st x hx; exact hx
  | cons f rest ih =>
    intro st x hx
    rw [passOnce]
    by_cases hproc : f ∈ st.processed
    · rw [if_pos hproc]; exact ih st x hx
    · rw [if_neg hproc]
      by_cases ht : (collectTracked env st.refs f (extractImports (envReadFile env) f)).isEmpty
      · rw [if_pos ht]; exact ih st x hx
      · rw [if_neg ht]
        exact ih _ x (List.mem_append_left _ hx)

theorem passOnce_found_new (env : ProjEnv) (d : Nat) :
    ∀ (L : List String) (st : PassState),
      (passOnce env d L st).found = st.found ∨
        ∃ f, f ∈ L ∧ f ∉ st.processed ∧ f ∈ (passOnce env d L st).processed := by
  intro L
  induction L with
  | nil => intro st; exact Or.inl rfl
  | cons f rest ih =>
    intro st
    rw [passOnce]
    by_cases hproc : f ∈ st.processed
    · rw [if_pos hproc]
      rcases ih st with h | ⟨g, hg, hgn, hgp⟩
      · exact Or.inl h
      · exact Or.inr ⟨g, List.mem_cons_of_mem _ hg, hgn, hgp⟩
    · rw [if_neg hproc]
      by_cases ht : (collectTracked env st.refs f (extractImports (envReadFile env) f)).isEmpty
      · rw [if_pos ht]
        rcases ih st with h | ⟨g, hg, hgn, hgp⟩
        · exact Or.inl h
        · exact Or.inr ⟨g, List.mem_cons_of_mem _ hg, hgn, hgp⟩
      · rw [if_neg ht]
        refine Or.inr ⟨f, List.mem_cons_self _ _, hproc, ?_⟩
        exact passOnce_processed_mono env d rest _ f
          (List.mem_append_right _ (List.mem_singleton.mpr rfl))

theorem refLoop_isSome (env : ProjEnv) (maxDepth : Int) :
    ∀ (fuel : Nat) (refs : RefMap) (processed : List String) (depth : Nat),
      (envSourceFiles env).countP (fun f => !(decide (f ∈ processed))) < fuel →
      (refLoop env maxDepth fuel refs processed depth).isSome := by
  intro fuel
  induction fuel with
  | zero => intro _ _ _ h; omega
  | succ n ih =>
    intro refs processed depth h
    rw [refLoop]
    by_cases hcond : maxDepth = -1 ∨ (depth : Int) ≤ maxDepth
    · rw [if_pos hcond]
      by_cases hf : (passOnce env depth (envSourceFiles env) ⟨refs, processed, []⟩).found.isEmpty
      · rw [if_pos hf]; exact rfl
      · rw [if_neg hf]
        apply ih
        rcases passOnce_found_new env depth (envSourceFiles env) ⟨refs, processed, []⟩ with
          heq | ⟨f, hfL, hfn, hfp⟩
        · rw [heq] at hf
          exact absurd rfl hf
        · have hmono := passOnce_processed_mono env depth (envSourceFiles env)
            ⟨refs, processed, []⟩
          have hlt := countP_lt_of_witness (envSourceFiles env)
            (p := fun x =>
              !(decide (x ∈ (passOnce env depth (envSourceFiles env)
                ⟨refs, processed, []⟩).processed)))
            (q := fun x => !(decide (x ∈ processed)))
            (fun a _ hpa => by
              simp only [Bool.not_eq_true', decide_eq_false_iff_not] at hpa ⊢
              intro hmem
              exact hpa (hmono a hmem))
            f hfL
            (by simp [hfn])
            (by simp [hfp])
          omega
    · rw [if_neg hcond]; exact rfl

/-- C6: for every finite project tree and target set, `findReferencingFiles`
with `maxDepth = -1` terminates: the depth loop stops as soon as a full pass
adds no new referencing file, and each continued pass adds at least one file
from the finite source-file set, so the internal fuel of (number of source
files + 1) is never exhausted. -/
theorem c6_traversal_terminates (env : ProjEnv) (targetFiles : List String) :
    (findReferencingFiles env targetFiles (-1)).isSome := by
  unfold findReferencingFiles
  apply refLoop_isSome
  have hle := List.countP_le_length
    (p := fun f => !(decide (f ∈ targetFiles.foldl
      (fun s g => if g ∈ s then s else s ++ [g]) []))) (l := envSourceFiles env)
  omega

/-! ### Shared association-map lemmas for the traversal invariants -/

def keysOf {κ α : Type} (m : List (κ × α)) : List κ := m.map Prod.fst

theorem keysOf_any_iff {κ α : Type} [DecidableEq κ] {m : List (κ × α)} {k : κ} :
    (m.any (fun kv => kv.1 = k)) = true ↔ k ∈ keysOf m := by
  simp only [List.any_eq_true, keysOf, List.mem_map, decide_eq_true_eq]

theorem assocSet_of_not_mem {κ α : Type} [DecidableEq κ] {m : List (κ × α)} {k : κ} {v : α}
    (h : k ∉ keysOf m) : assocSet m k v = m ++ [(k, v)] := by
  unfold assocSet
  rw [if_neg]
  intro hany
  exact h (keysOf_any_iff.mp hany)

theorem assocGet_cons_eq {κ α : Type} [DecidableEq κ] {kv : κ × α} {m : List (κ × α)} {k : κ}
    (h : kv.1 = k) : assocGet (kv :: m) k = some kv.2 := by
  unfold assocGet
  rw [List.find?_cons_of_pos]
  · rfl
  · simp [h]

theorem assocGet_cons_ne {κ α : Type} [DecidableEq κ] {kv : κ × α} {m : List (κ × α)} {k : κ}
    (h : ¬ kv.1 = k) : assocGet (kv :: m) k = assocGet m k := by
  unfold assocGet
  rw [List.find?_cons_of_neg]
  simp [h]

theorem assocGet_append_left {κ α : Type} [DecidableEq κ] {m l : List (κ × α)} {k : κ} {v : α}
    (h : assocGet m k = some v) : assocGet (m ++ l) k = some v := by
  induction m with
  | nil => simp [assocGet, List.find?] at h
  | cons kv ms ih =>
    rw [List.cons_append]
    by_cases hk : kv.1 = k
    · rw [assocGet_cons_eq hk] at h ⊢
      exact h
    · rw [assocGet_cons_ne hk] at h ⊢
      exact ih h

theorem assocGet_append_cases {κ α : Type} [DecidableEq κ] {m l : List (κ × α)} {k : κ} {v : α}
    (h : assocGet (m ++ l) k = some v) : assocGet m k = some v ∨ assocGet l k = some v := by
  induction m with
  | nil => right; simpa using h
  | cons kv ms ih =>
    rw [List.cons_append] at h
    by_cases hk : kv.1 = k
    · rw [assocGet_cons_eq hk] at h
      exact Or.inl ((assocGet_cons_eq hk).trans h)
    · rw [assocGet_cons_ne hk] at h
      rcases ih h with h2 | h2
      · exact Or.inl ((assocGet_cons_ne hk).trans h2)
      · exact Or.inr h2

theorem assocGet_singleton_cases {κ α : Type} [DecidableEq κ] {k f : κ} {v r : α}
    (h : assocGet [(f, v)] k = some r) : k = f ∧ r = v := by
  have hmem := List.mem_singleton.mp (assocGet_eq_some h)
  exact ⟨congrArg Prod.fst hmem, congrArg Prod.snd hmem⟩

theorem keysOf_append {κ α : Type} (m l : List (κ × α)) :
    keysOf (m ++ l) = keysOf m ++ keysOf l := by
  simp [keysOf]

theorem assocSet_keys_nodup {κ α : Type} [DecidableEq κ] {m : List (κ × α)} {k : κ} {v : α}
    (h : (keysOf m).Nodup) : (keysOf (assocSet m k v)).Nodup := by
  unfold assocSet
  split
  · have : keysOf (m.map (fun kv => if kv.1 = k then (k, v) else kv)) = keysOf m := by
      unfold keysOf
      rw [List.map_map]
      apply List.map_congr_left
      intro kv _
      by_cases hk : kv.1 = k
      · simp [hk]
      · simp [hk]
    rw [this]
    exact h
  · next hany =>
    rw [keysOf_append]
    have hk : k ∉ keysOf m := fun hmem => hany (keysOf_any_iff.mpr hmem)
    simp only [keysOf, List.map_cons, List.map_nil]
    rw [List.nodup_append]
    refine ⟨h, List.nodup_singleton _, ?_⟩
    intro a ha hb
    rw [List.mem_singleton] at hb
    exact hk (hb ▸ ha)

/-! Generic lemmas about `foldl assocSet` with a value function (used for the
depth-0 initialization of the reference map). -/

theorem foldSet_val {κ α : Type} [DecidableEq κ] (g : κ → α) :
    ∀ (ps : List κ) (acc : List (κ × α)),
      (∀ kv ∈ acc, kv.2 = g kv.1) →
      ∀ kv ∈ ps.foldl (fun m f => assocSet m f (g f)) acc, kv.2 = g kv.1 := by
  intro ps
  induction ps with
  | nil => intro acc hacc kv hkv; exact hacc kv hkv
  | cons q qs ih =>
    intro acc hacc kv hkv
    refine ih _ ?_ kv hkv
    intro kv' hkv'
    rcases assocSet_mem hkv' with h | h
    · exact hacc kv' h
    · rw [h]

theorem foldSet_mem {κ α : Type} [DecidableEq κ] (g : κ → α) {p : κ} :
    ∀ (ps : List κ) (acc : List (κ × α)),
      (p ∈ ps ∨ (p, g p) ∈ acc) →
      (p, g p) ∈ ps.foldl (fun m f => assocSet m f (g f)) acc := by
  intro ps
  induction ps with
  | nil =>
    intro acc h
    rcases h with h | h
    · cases h
    · exact h
  | cons q qs ih =>
    intro acc h
    rcases h with h | h
    · rcases List.mem_cons.mp h with rfl | hqs
      · exact ih _ (Or.inr (assocSet_self _ _ _))
      · exact ih _ (Or.inl hqs)
    · by_cases hpq : p = q
      · subst hpq
        exact ih _ (Or.inr (assocSet_self _ _ _))
      · exact ih _ (Or.inr (assocSet_preserve h hpq))

theorem foldSet_keys {κ α : Type} [DecidableEq κ] (g : κ → α) :
    ∀ (ps : List κ) (acc : List (κ × α)) (kv : κ × α),
      kv ∈ ps.foldl (fun m f => assocSet m f (g f)) acc →
      kv ∈ acc ∨ kv.1 ∈ ps := by
  intro ps
  induction ps with
  | nil => intro acc kv h; exact Or.inl h
  | cons q qs ih =>
    intro acc kv h
    rcases ih _ kv h with h2 | h2
    · rcases assocSet_mem h2 with h3 | h3
      · exact Or.inl h3
      · right
        rw [h3]
        exact List.mem_cons_self _ _
    · exact Or.inr (List.mem_cons_of_mem _ h2)

theorem foldSet_lookup {κ α : Type} [DecidableEq κ] (g : κ → α) {ps : List κ} {p : κ}
    (h : p ∈ ps) :
    assocGet (ps.foldl (fun m f => assocSet m f (g f)) []) p = some (g p) := by
  cases hf : assocGet (ps.foldl (fun m f => assocSet m f (g f)) []) p with
  | none => exact absurd (foldSet_mem g ps [] (Or.inl h)) (assocGet_eq_none hf _)
  | some v =>
    have hkv := assocGet_eq_some hf
    have := foldSet_val g ps [] (by intro kv hkv2; cases hkv2) (p, v) hkv
    simp only at this
    rw [this]

theorem foldSet_keys_nodup {κ α : Type} [DecidableEq κ] (g : κ → α) :
    ∀ (ps : List κ) (acc : List (κ × α)),
      (keysOf acc).Nodup →
      (keysOf (ps.foldl (fun m f => assocSet m f (g f)) acc)).Nodup := by
  intro ps
  induction ps with
  | nil => intro acc h; exact h
  | cons q qs ih => intro acc h; exact ih _ (assocSet_keys_nodup h)

theorem dedupFold_mem {x : String} :
    ∀ (ps : List String) (acc : List String),
      (x ∈ ps ∨ x ∈ acc) →
      x ∈ ps.foldl (fun s f => if f ∈ s then s else s ++ [f]) acc := by
  intro ps
  induction ps with
  | nil =>
    intro acc h
    rcases h with h | h
    · cases h
    · exact h
  | cons q qs ih =>
    intro acc h
    have hstep : ∀ y ∈ acc, y ∈ (if q ∈ acc then acc else acc ++ [q]) := by
      intro y hy
      split
      · exact hy
      · exact List.mem_append_left _ hy
    rcases h with h | h
    · rcases List.mem_cons.mp h with rfl | hqs
      · refine ih _ (Or.inr ?_)
        show x ∈ (if x ∈ acc then acc else acc ++ [x])
        by_cases hq : x ∈ acc
        · rw [if_pos hq]; exact hq
        · rw [if_neg hq]; exact List.mem_append_right _ (List.mem_singleton.mpr rfl)
      · exact ih _ (Or.inl hqs)
    · exact ih _ (Or.inr (hstep x h))

/-! ### C8 / C10: invariants of one pass and of the depth loop -/

theorem collectTracked_nil (env : ProjEnv) (refs : RefMap) (file : String) :
    collectTracked env refs file [] = [] := rfl

theorem passOnce_master (env : ProjEnv) (d : Nat) :
    ∀ (L : List String) (st : PassState),
      (∀ kk ∈ keysOf st.refs, kk ∈ st.processed) →
      (∀ kk ∈ keysOf (passOnce env d L st).refs, kk ∈ (passOnce env d L st).processed) ∧
      (∀ f r, assocGet st.refs f = some r → assocGet (passOnce env d L st).refs f = some r) ∧
      ((keysOf st.refs).Nodup → (keysOf (passOnce env d L st).refs).Nodup) ∧
      (∀ k r, assocGet (passOnce env d L st).refs k = some r →
        assocGet st.refs k = some r ∨ extractImports (envReadFile env) k ≠ []) := by
  intro L
  induction L with
  | nil =>
    intro st hinv
    exact ⟨hinv, fun f r h => h, fun h => h, fun k r h => Or.inl h⟩
  | cons f rest ih =>
    intro st hinv
    rw [passOnce]
    by_cases hproc : f ∈ st.processed
    · rw [if_pos hproc]
      exact ih st hinv
    · rw [if_neg hproc]
      by_cases ht : (collectTracked env st.refs f (extractImports (envReadFile env) f)).isEmpty
      · rw [if_pos ht]
        exact ih st hinv
      · rw [if_neg ht]
        have hfkey : f ∉ keysOf st.refs := fun hmem => hproc (hinv f hmem)
        have hset : assocSet st.refs f
            ⟨f, collectTracked env st.refs f (extractImports (envReadFile env) f), d⟩ =
            st.refs ++ [(f, ⟨f, collectTracked env st.refs f (extractImports (envReadFile env) f), d⟩)] :=
          assocSet_of_not_mem hfkey
        have himpf : extractImports (envReadFile env) f ≠ [] := by
          intro hnil
          rw [hnil, collectTracked_nil] at ht
          exact ht rfl
        have hinv' : ∀ kk ∈ keysOf (assocSet st.refs f
            ⟨f, collectTracked env st.refs f (extractImports (envReadFile env) f), d⟩),
            kk ∈ st.processed ++ [f] := by
          rw [hset, keysOf_append]
          intro kk hkk
          rcases List.mem_append.mp hkk with h2 | h2
          · exact List.mem_append_left _ (hinv kk h2)
          · simp only [keysOf, List.map_cons, List.map_nil, List.mem_singleton] at h2
            exact List.mem_append_right _ (List.mem_singleton.mpr h2)
        obtain ⟨ih1, ih2, ih3, ih4⟩ := ih
          ⟨assocSet st.refs f ⟨f, collectTracked env st.refs f (extractImports (envReadFile env) f), d⟩,
            st.processed ++ [f],
            st.found ++ [⟨f, collectTracked env st.refs f (extractImports (envReadFile env) f), d⟩]⟩
          hinv'
        refine ⟨ih1, ?_, ?_, ?_⟩
        · intro g r hg
          apply ih2
          show assocGet (assocSet st.refs f _) g = some r
          rw [hset]
          exact assocGet_append_left hg
        · intro hnd
          apply ih3
          show (keysOf (assocSet st.refs f _)).Nodup
          exact assocSet_keys_nodup hnd
        · intro k r hk
          rcases ih4 k r hk with h2 | h2
          · rw [hset] at h2
            rcases assocGet_append_cases h2 with h3 | h3
            · exact Or.inl h3
            · obtain ⟨hkf, _⟩ := assocGet_singleton_cases h3
              exact Or.inr (hkf ▸ himpf)
          · exact Or.inr h2

theorem refLoop_master (env : ProjEnv) (maxDepth : Int) :
    ∀ (fuel : Nat) (refs : RefMap) (processed : List String) (depth : Nat) (m : RefMap),
      (∀ kk ∈ keysOf refs, kk ∈ processed) →
      refLoop env maxDepth fuel refs processed depth = some m →
      (∀ f r, assocGet refs f = some r → assocGet m f = some r) ∧
      ((keysOf refs).Nodup → (keysOf m).Nodup) ∧
      (∀ k r, assocGet m k = some r →
        assocGet refs k = some r ∨ extractImports (envReadFile env) k ≠ []) := by
  intro fuel
  induction fuel with
  | zero => intro _ _ _ _ _ h; exact Option.noConfusion h
  | succ n ih =>
    intro refs processed depth m hinv h
    rw [refLoop] at h
    by_cases hcond : maxDepth = -1 ∨ (depth : Int) ≤ maxDepth
    · rw [if_pos hcond] at h
      obtain ⟨p1, p2, p3, p4⟩ := passOnce_master env depth (envSourceFiles env)
        ⟨refs, processed, []⟩ hinv
      by_cases hf : (passOnce env depth (envSourceFiles env) ⟨refs, processed, []⟩).found.isEmpty
      · rw [if_pos hf] at h
        injection h with h
        subst h
        exact ⟨p2, p3, p4⟩
      · rw [if_neg hf] at h
        obtain ⟨q1, q2, q3⟩ := ih _ _ _ _ p1 h
        refine ⟨fun f r hr => q1 f r (p2 f r hr), fun hnd => q2 (p3 hnd), ?_⟩
        intro k r hk
        rcases q3 k r hk with h2 | h2
        · exact p4 k r h2
        · exact Or.inr h2
    · rw [if_neg hcond] at h
      injection h with h
      subst h
      exact ⟨fun f r hr => hr, fun hnd => hnd, fun k r hk => Or.inl hk⟩

/-- C8: invariants of the reference traversal.  (1) In any returned map every
target file is present with depth 0 and the original `{file, imports: [],
depth: 0}` record, and every file appears at most once (the key list has no
duplicates).  (2) First-discovery wins: from any loop state whose tracked
keys are all processed, an entry present in the reference map is returned
unchanged by the rest of the traversal — no later pass re-adds it or changes
its depth. -/
theorem c8_traversal_invariants (env : ProjEnv) (targetFiles : List String) (maxDepth : Int) :
    (∀ m, findReferencingFiles env targetFiles maxDepth = some m →
      (∀ t ∈ targetFiles, assocGet m t = some ⟨t, [], 0⟩) ∧ (keysOf m).Nodup) ∧
    (∀ (fuel : Nat) (refs : RefMap) (processed : List String) (depth : Nat) (m : RefMap),
      (∀ kk ∈ keysOf refs, kk ∈ processed) →
      refLoop env maxDepth fuel refs processed depth = some m →
      ∀ f r, assocGet refs f = some r → assocGet m f = some r) := by
  constructor
  · intro m hm
    unfold findReferencingFiles at hm
    have hinv0 : ∀ kk ∈ keysOf (targetFiles.foldl
          (fun mm f => assocSet mm f (⟨f, [], 0⟩ : FileReference)) []),
        kk ∈ targetFiles.foldl (fun s f => if f ∈ s then s else s ++ [f]) [] := by
      intro kk hkk
      have hkk' : kk ∈ (targetFiles.foldl
          (fun mm f => assocSet mm f (⟨f, [], 0⟩ : FileReference)) []).map
          Prod.fst := hkk
      rcases List.mem_map.mp hkk' with ⟨kv, hkv, hfst⟩
      rcases foldSet_keys (fun f => (⟨f, [], 0⟩ : FileReference)) targetFiles [] kv hkv with
        h2 | h2
      · cases h2
      · exact dedupFold_mem targetFiles [] (Or.inl (hfst ▸ h2))
    obtain ⟨q1, q2, _⟩ := refLoop_master env maxDepth _ _ _ _ _ hinv0 hm
    constructor
    · intro t ht
      exact q1 t ⟨t, [], 0⟩ (foldSet_lookup (fun f => (⟨f, [], 0⟩ : FileReference)) ht)
    · exact q2 (foldSet_keys_nodup (fun f => (⟨f, [], 0⟩ : FileReference)) targetFiles []
        List.nodup_nil)
  · intro fuel refs processed depth m hinv hm
    exact (refLoop_master env maxDepth fuel refs processed depth m hinv hm).1

def c8m : RefMap :=
  [(("/proj/a.dart"), ⟨("/proj/a.dart"), [], 0⟩),
   (("/proj/b.dart"), ⟨("/proj/b.dart"), [("/proj/a.dart")], 1⟩),
   (("/proj/c.dart"), ⟨("/proj/c.dart"), [("/proj/b.dart")], 2⟩)]

def c8refs1 : RefMap :=
  [(("/proj/a.dart"), ⟨("/proj/a.dart"), [], 0⟩),
   (("/proj/b.dart"), ⟨("/proj/b.dart"), [("/proj/a.dart")], 1⟩)]

theorem c8_traversal_invariants_witness :
    (assocGet c8m ("/proj/a.dart") = some ⟨("/proj/a.dart"), [], 0⟩ ∧ (keysOf c8m).Nodup) ∧
    assocGet c8m ("/proj/b.dart") = some ⟨("/proj/b.dart"), [("/proj/a.dart")], 1⟩ := by
  have h := c8_traversal_invariants c3envCBA [("/proj/a.dart")] (-1)
  have h1 := h.1 c8m (by decide)
  refine ⟨⟨h1.1 ("/proj/a.dart") (by decide), h1.2⟩, ?_⟩
  exact h.2 3 c8refs1 [("/proj/a.dart"), ("/proj/b.dart")] 2 c8m (by decide) (by decide)
    ("/proj/b.dart") ⟨("/proj/b.dart"), [("/proj/a.dart")], 1⟩ (by decide)

/-- C10: the import relation only recognizes `import '<path>'` / `import
"<path>"` with the quoted path right after the keyword (Dart style).  (1) A
file consisting of the ES-module forms `import X from "./y"` and `import
{ a } from "./z"` yields no extracted import.  (2) A non-target file whose
extracted import list is empty is never added to the result map at any depth. -/
theorem c10_es_imports_never_referenced :
    (extractImports
        (fun _ => some ("import X from \"./y\"\nimport \x7b a \x7d from \"./z\""))
        ("/f.ts") = []) ∧
    (∀ (env : ProjEnv) (targetFiles : List String) (maxDepth : Int) (f : String) (m : RefMap),
      f ∉ targetFiles →
      extractImports (envReadFile env) f = [] →
      findReferencingFiles env targetFiles maxDepth = some m →
      assocGet m f = none) := by
  constructor
  · decide
  · intro env targetFiles maxDepth f m hft himp hm
    unfold findReferencingFiles at hm
    have hinv0 : ∀ kk ∈ keysOf (targetFiles.foldl
          (fun mm g => assocSet mm g (⟨g, [], 0⟩ : FileReference)) []),
        kk ∈ targetFiles.foldl (fun s g => if g ∈ s then s else s ++ [g]) [] := by
      intro kk hkk
      have hkk' : kk ∈ (targetFiles.foldl
          (fun mm g => assocSet mm g (⟨g, [], 0⟩ : FileReference)) []).map
          Prod.fst := hkk
      rcases List.mem_map.mp hkk' with ⟨kv, hkv, hfst⟩
      rcases foldSet_keys (fun g => (⟨g, [], 0⟩ : FileReference)) targetFiles [] kv hkv with
        h2 | h2
      · cases h2
      · exact dedupFold_mem targetFiles [] (Or.inl (hfst ▸ h2))
    obtain ⟨_, _, q3⟩ := refLoop_master env maxDepth _ _ _ _ _ hinv0 hm
    cases hg : assocGet m f with
    | none => rfl
    | some r =>
      rcases q3 f r hg with h2 | h2
      · have hmem := assocGet_eq_some h2
        rcases foldSet_keys (fun g => (⟨g, [], 0⟩ : FileReference)) targetFiles [] (f, r)
          hmem with h3 | h3
        · cases h3
        · exact absurd h3 hft
      · exact absurd himp h2

def c10env : ProjEnv := ⟨("/proj"),
  [FsEntry.file ("a.dart") (some ("")),
   FsEntry.file ("c.ts") (some ("import X from \"./a.dart\"\nimport \x7b a \x7d from \"./a.dart\""))]⟩

theorem c10_es_imports_never_referenced_witness :
    assocGet c8m ("/f.ts") = none ∧
    ((findReferencingFiles c10env [("/proj/a.dart")] (-1)).map
        (fun m => assocGet m ("/proj/c.ts"))) = some none := by
  constructor
  · decide
  · have hfind : findReferencingFiles c10env [("/proj/a.dart")] (-1) =
        some [(("/proj/a.dart"), ⟨("/proj/a.dart"), [], 0⟩)] := by decide
    rw [hfind, Option.map_some']
    rw [(c10_es_imports_never_referenced).2 c10env [("/proj/a.dart")] (-1) ("/proj/c.ts")
      [(("/proj/a.dart"), ⟨("/proj/a.dart"), [], 0⟩)] (by decide) (by decide) hfind]

/-! ## Pattern matcher (src/utils/patternMatcher.ts) -/

/-- JS `Set.add` on an insertion-ordered string set. -/
def jsSetAdd (s : List String) (x : String) : List String := if x ∈ s then s else s ++ [x]

/-- A compiled JS regex with the `g` flag is STATEFUL: `test(content)` starts
searching at `lastIndex`, sets `lastIndex` past the match on success and
resets it to 0 on failure.  The search itself is abstract: `matchFrom content
i` is the first match at position ≥ `i`, as (start, end) positions. -/
structure GRegex where
  matchFrom : String → Nat → Option (Nat × Nat)

/-- `RegExp.prototype.test` on a `g`-flagged regex: returns the outcome and
the NEW `lastIndex`. -/
def testG (r : GRegex) (lastIndex : Nat) (content : String) : Bool × Nat :=
  match r.matchFrom content lastIndex with
  | some se => (true, se.2)
  | none => (false, 0)

/-- `new RegExp(pattern, 'gm')` with the per-pattern try/catch: invalid
patterns (`compile p = none`) are logged and skipped. -/
def compilePatterns (compile : String → Option GRegex) : List String → List GRegex
  | [] => []
  | p :: rest =>
    match compile p with
    | some r => r :: compilePatterns compile rest
    | none => compilePatterns compile rest

/-- The per-file `for (const pattern of compiledPatterns)` loop with its
`break` on the first hit; regex states after the break are left untouched. -/
def testPatternsOnContent : List (GRegex × Nat) → String → Bool × List (GRegex × Nat)
  | [], _ => (false, [])
  | rs :: rest, content =>
    match testG rs.1 rs.2 content with
    | (true, li) => (true, (rs.1, li) :: rest)
    | (false, li) =>
      match testPatternsOnContent rest content with
    | res => (res.1, (rs.1, li) :: res.2)

/-- The loop over the files.  The source runs the reads in chunks of 10 under
`Promise.all`; each file's synchronous test section still executes in list
order (reads resolve in issue order), so the chunking is not observable and
the loop is modelled directly over the file list.  `readf f = none` models a
failed `stat`/read (the file is skipped; regex states untouched). -/
def searchLoop (readf : String → Option String) :
    List String → List (GRegex × Nat) → List String → List String × List (GRegex × Nat)
  | [], sts, matched => (matched, sts)
  | f :: rest, sts, matched =>
    match readf f with
    | none => searchLoop readf rest sts matched
    | some content =>
      match testPatternsOnContent sts content with
      | (true, sts') => searchLoop readf rest sts' (jsSetAdd matched f)
      | (false, sts') => searchLoop readf rest sts' matched

def searchFilesByRegex (readf : String → Option String) (files : List String)
    (patterns : List String) (compile : String → Option GRegex) : List String :=
  if files.isEmpty || patterns.isEmpty then []
  else
    match compilePatterns compile patterns with
    | [] => []
    | c :: cs =>
      sortStr (searchLoop readf files ((c :: cs).map (fun r => (r, 0))) []).1

/-- First occurrence of `pat` at a position ≥ the current one (`pos` is the
absolute position of the head of the list being scanned). -/
def firstOccurAux (pat : List Char) : List Char → Nat → Option Nat
  | [], pos => if pat.isEmpty then some pos else none
  | c :: rest, pos =>
    if pat.isPrefixOf (c :: rest) then some pos else firstOccurAux pat rest (pos + 1)

/-- The matcher of the literal-text regular expression `pat` (no
metacharacters), as a `g`-regex search function. -/
def litMatchFrom (pat : String) : String → Nat → Option (Nat × Nat) := fun content i =>
  (firstOccurAux pat.toList (content.toList.drop i) i).map (fun s => (s, s + pat.length))

def c4readf : String → Option String := fun p =>
  if p = ("/t/f1.txt") then some ("xxa") else if p = ("/t/f2.txt") then some ("a") else none

def c4compile : String → Option GRegex := fun p => some ⟨litMatchFrom p⟩

/-- C4: FALSE of the code — content matching is NOT independent of compiled
pattern reuse.  Patterns are compiled once with the `g` flag and `test` is
reused across files, so `lastIndex` carries over: with the single pattern `a`
and readable files `f1 = "xxa"`, `f2 = "a"` searched in that order, `f1`'s hit
leaves `lastIndex = 3`, the search in `f2` starts past its end, and `f2` is
missing from the result even though its content matches the pattern (third
conjunct: a fresh search of `f2`'s content succeeds at position 0). -/
theorem c4_g_flag_lastindex_bug :
    (searchFilesByRegex c4readf [("/t/f1.txt"), ("/t/f2.txt")] [("a")] c4compile
      = [("/t/f1.txt")]) ∧
    (searchFilesByRegex c4readf [("/t/f2.txt"), ("/t/f1.txt")] [("a")] c4compile
      = [("/t/f1.txt"), ("/t/f2.txt")]) ∧
    (litMatchFrom ("a") ("a") 0 = some (0, 1)) := by
  decide

/-! ### `findFilesByGlob` and `findMatchingFiles`.  The `minimatch` library is
external and is modelled as an arbitrary predicate `mm relativePath pattern`. -/

def relativeTo (base full : String) : String :=
  if (base ++ ("/")).toList.isPrefixOf full.toList then
    String.mk (full.toList.drop (base ++ ("/")).length)
  else full

mutual
/-- `findFilesByGlob`'s directory walk: skips hidden directories and
`node_modules`; a file is collected when its path relative to `basePath`
matches any pattern (first hit breaks). -/
def globWalkEntry (mm : String → String → Bool) (basePath : String) (patterns : List String)
    (dir : String) : FsEntry → List String
  | FsEntry.file name _ =>
    if patterns.any (fun pattern => mm (relativeTo basePath (pathJoin dir name)) pattern) then
      [pathJoin dir name]
    else []
  | FsEntry.dir name entries =>
    if strStarts name (".") = false ∧ name ≠ ("node_modules") then
      globWalkEntries mm basePath patterns (pathJoin dir name) entries
    else []
def globWalkEntries (mm : String → String → Bool) (basePath : String) (patterns : List String)
    (dir : String) : List FsEntry → List String
  | [] => []
  | e :: rest =>
    globWalkEntry mm basePath patterns dir e ++ globWalkEntries mm basePath patterns dir rest
end

def findFilesByGlob (mm : String → String → Bool) (basePath : String)
    (entries : List FsEntry) (patterns : List String) : List String :=
  if patterns.isEmpty then []
  else sortStr ((globWalkEntries mm basePath patterns basePath entries).foldl jsSetAdd [])

/-- The result of `fs.stat(basePath)`: missing, a non-directory, or a
directory with its tree. -/
inductive BaseStat where
  | missing
  | notDir
  | dir (entries : List FsEntry)

def optNonEmpty (o : Option (List String)) : Bool :=
  match o with
  | some l => !l.isEmpty
  | none => false

/-- `findMatchingFiles`: validate the base path, take the union of glob
matches and content matches (content search restricted to the glob-matched
set when globs were given, otherwise over all files via the `**/*` walk),
de-duplicated and sorted; with neither pattern list, the empty list. -/
def findMatchingFiles (mm : String → String → Bool) (compile : String → Option GRegex)
    (basePath : String) (base : BaseStat) (readf : String → Option String)
    (globs regex : Option (List String)) : Except String (List String) :=
  match base with
  | BaseStat.missing =>
    Except.error (("Base path \"") ++ basePath ++ ("\" does not exist"))
  | BaseStat.notDir =>
    Except.error (("Base path \"") ++ basePath ++ ("\" is not a directory"))
  | BaseStat.dir entries =>
    if optNonEmpty globs then
      if optNonEmpty regex then
        Except.ok (sortStr ((searchFilesByRegex readf
            ((findFilesByGlob mm basePath entries (globs.getD [])).foldl jsSetAdd [])
            (regex.getD []) compile).foldl jsSetAdd
          ((findFilesByGlob mm basePath entries (globs.getD [])).foldl jsSetAdd [])))
      else
        Except.ok (sortStr ((findFilesByGlob mm basePath entries (globs.getD [])).foldl
          jsSetAdd []))
    else
      if optNonEmpty regex then
        Except.ok (sortStr ((searchFilesByRegex readf
            (findFilesByGlob mm basePath entries [("**/*")])
            (regex.getD []) compile).foldl jsSetAdd []))
      else Except.ok []

/-! ### C5: union, de-duplicated, sorted -/

theorem jsSetAdd_fold_mem {x : String} :
    ∀ (l acc : List String), x ∈ l.foldl jsSetAdd acc ↔ x ∈ acc ∨ x ∈ l := by
  intro l
  induction l with
  | nil => intro acc; simp
  | cons y ys ih =>
    intro acc
    rw [List.foldl_cons, ih]
    unfold jsSetAdd
    by_cases hy : y ∈ acc
    · rw [if_pos hy]
      constructor
      · rintro (h | h)
        · exact Or.inl h
        · exact Or.inr (List.mem_cons_of_mem _ h)
      · rintro (h | h)
        · exact Or.inl h
        · rcases List.mem_cons.mp h with rfl | h2
          · exact Or.inl hy
          · exact Or.inr h2
    · rw [if_neg hy]
      simp only [List.mem_append, List.mem_singleton, List.mem_cons]
      tauto

theorem jsSetAdd_fold_nodup :
    ∀ (l acc : List String), acc.Nodup → (l.foldl jsSetAdd acc).Nodup := by
  intro l
  induction l with
  | nil => intro acc h; exact h
  | cons y ys ih =>
    intro acc h
    rw [List.foldl_cons]
    apply ih
    unfold jsSetAdd
    by_cases hy : y ∈ acc
    · rw [if_pos hy]; exact h
    · rw [if_neg hy]
      rw [List.nodup_append]
      exact ⟨h, List.nodup_singleton _, fun a ha hb => hy ((List.mem_singleton.mp hb) ▸ ha)⟩

def baseEntries : BaseStat → List FsEntry
  | BaseStat.dir e => e
  | _ => []

/-- C5: whenever `findMatchingFiles` succeeds, the returned list is sorted by
the JS string comparator, contains no duplicates, and a path is in it exactly
when it is in the glob-match set or in the content-match set (the content
search running over the glob-matched set when globs were given, otherwise
over the `**/*` walk; with neither pattern list both sets are empty). -/
theorem c5_union_dedup_sorted (mm : String → String → Bool) (compile : String → Option GRegex)
    (basePath : String) (base : BaseStat) (readf : String → Option String)
    (globs regex : Option (List String)) (l : List String)
    (h : findMatchingFiles mm compile basePath base readf globs regex = Except.ok l) :
    l.Pairwise (fun a b => strLe a b = true) ∧ l.Nodup ∧
    (∀ x, x ∈ l ↔
      (x ∈ (if optNonEmpty globs = true then
        findFilesByGlob mm basePath (baseEntries base) (globs.getD []) else []) ∨
       x ∈ (if optNonEmpty regex = true then
        searchFilesByRegex readf
          (if optNonEmpty globs = true then
            (findFilesByGlob mm basePath (baseEntries base) (globs.getD [])).foldl jsSetAdd []
          else findFilesByGlob mm basePath (baseEntries base) [("**/*")])
          (regex.getD []) compile
        else []))) := by
  cases base with
  | missing => exact absurd h (by simp [findMatchingFiles])
  | notDir => exact absurd h (by simp [findMatchingFiles])
  | dir entries =>
    simp only [findMatchingFiles] at h
    by_cases hg : optNonEmpty globs = true
    · rw [if_pos hg] at h
      by_cases hr : optNonEmpty regex = true
      · rw [if_pos hr] at h
        injection h with h
        subst h
        refine ⟨sorted_sortStr _, nodup_sortStr (jsSetAdd_fold_nodup _ _
          (jsSetAdd_fold_nodup _ _ List.nodup_nil)), ?_⟩
        intro x
        rw [mem_sortStr, jsSetAdd_fold_mem, jsSetAdd_fold_mem]
        rw [if_pos hg, if_pos hr, if_pos hg]
        simp only [List.not_mem_nil, false_or, baseEntries]
      · rw [if_neg hr] at h
        injection h with h
        subst h
        refine ⟨sorted_sortStr _, nodup_sortStr (jsSetAdd_fold_nodup _ _ List.nodup_nil), ?_⟩
        intro x
        rw [mem_sortStr, jsSetAdd_fold_mem]
        rw [if_pos hg, if_neg hr]
        simp only [List.not_mem_nil, false_or, or_false, baseEntries]
    · rw [if_neg hg] at h
      by_cases hr : optNonEmpty regex = true
      · rw [if_pos hr] at h
        injection h with h
        subst h
        refine ⟨sorted_sortStr _, nodup_sortStr (jsSetAdd_fold_nodup _ _ List.nodup_nil), ?_⟩
        intro x
        rw [mem_sortStr, jsSetAdd_fold_mem]
        rw [if_neg hg, if_pos hr, if_neg hg]
        simp only [List.not_mem_nil, false_or, baseEntries]
      · rw [if_neg hr] at h
        injection h with h
        subst h
        refine ⟨List.Pairwise.nil, List.nodup_nil, ?_⟩
        intro x
        rw [if_neg hg, if_neg hr]
        simp

def c5entries : List FsEntry :=
  [FsEntry.file ("b.txt") (some ("xa")), FsEntry.file ("a.txt") (some ("zz"))]

def c5mm : String → String → Bool := fun _ _ => true

def c5readf : String → Option String := fun p =>
  if p = ("/t/a.txt") then some ("zz") else if p = ("/t/b.txt") then some ("xa") else none

def c5compile : String → Option GRegex := fun p => some ⟨litMatchFrom p⟩

theorem c5_union_dedup_sorted_witness :
    (([("/t/a.txt")] : List String).Pairwise (fun a b => strLe a b = true)) ∧
    (([("/t/a.txt")] : List String).Nodup) ∧
    (("/t/a.txt") ∈ ([("/t/a.txt")] : List String) ↔
      (("/t/a.txt") ∈ ([] : List String) ∨
       ("/t/a.txt") ∈ searchFilesByRegex c5readf
         (findFilesByGlob c5mm ("/t") c5entries [("**/*")]) [("z")] c5compile)) := by
  have h := c5_union_dedup_sorted c5mm c5compile ("/t") (BaseStat.dir c5entries) c5readf
    none (some [("z")]) [("/t/a.txt")] (by rfl)
  exact ⟨h.1, h.2.1, h.2.2 ("/t/a.txt")⟩
